import Mathlib

/-!
# Verification of the bevydot event-sourced graph pipeline

Shallow embedding of the core of the `bevydot` repository:

* `src/types.rs` — the closed `NodeType` tag enum and the DOT-side `NodeInfo`;
* `src/parser.rs` — the line-oriented DOT parser `parse_dot_file`;
* `src/sources/mod.rs` — the `detect_format` heuristic;
* `src/events.rs` — the `GraphEvent` vocabulary and `EventResult` outcomes;
* `src/graph_state.rs` — the `GraphState` state machine (`process_event`,
  `process_events`, `as_graph_data`, `node_count`, `edge_count`, `get_node`);
* `src/sources/dot.rs` — `DotSource::events` (batch assembly and duplicate-name
  disambiguation);
* `src/sources/plantuml.rs` — the participant level / node-type derivation.

Machine integers: node levels are `u32` in Rust; they are modelled as `Nat`
(the only place a `u32` bound is observable is `str::parse::<u32>`, which the
model bounds explicitly).  Strings in the concrete inputs are ASCII, so Rust
byte indices coincide with the character indices used here.
-/

/-! ## Rust string primitives, modelled on `List Char` / `String` -/

/-- `pat` is a leading segment of `l` (Rust `str::starts_with` on char lists). -/
def leadsWith : List Char → List Char → Bool
  | [], _ => true
  | _ :: _, [] => false
  | a :: as, b :: bs => a == b && leadsWith as bs

/-- `l` has `pat` as a contiguous segment (Rust `str::contains(&str)`). -/
def containsSeq (pat : List Char) : List Char → Bool
  | [] => leadsWith pat []
  | c :: tl => leadsWith pat (c :: tl) || containsSeq pat tl

/-- Rust `str::contains(&str)`. -/
def strContains (s pat : String) : Bool := containsSeq pat.toList s.toList

/-- Rust `str::contains(char)`. -/
def strContainsChar (s : String) (c : Char) : Bool := s.toList.contains c

/-- Rust `str::find(char)`: index of the first occurrence. -/
def findCharIdx? (l : List Char) (c : Char) : Option Nat := l.findIdx? (· == c)

/-- Rust `str::rfind(char)`: index of the last occurrence. -/
def rfindCharIdx? (l : List Char) (c : Char) : Option Nat :=
  (l.reverse.findIdx? (· == c)).map (fun i => l.length - 1 - i)

/-- Rust `str::find(&str)`: first index at which `pat` starts. -/
def findSeqIdx? (pat : List Char) : List Char → Option Nat
  | [] => if leadsWith pat [] then some 0 else none
  | c :: tl => if leadsWith pat (c :: tl) then some 0 else (findSeqIdx? pat tl).map (· + 1)

/-- Rust `str::trim_matches(char)`: strip every leading and trailing `c`. -/
def trimMatchesChar (c : Char) (s : String) : String :=
  ⟨((s.toList.dropWhile (· == c)).reverse.dropWhile (· == c)).reverse⟩

/-- Rust `str::trim_end_matches(char)`: strip every trailing `c`. -/
def trimEndMatchesChar (c : Char) (s : String) : String :=
  ⟨(s.toList.reverse.dropWhile (· == c)).reverse⟩

/-- ASCII whitespace (the characters Rust `str::trim` strips in the ASCII
range; every concrete input below is ASCII). -/
def wsChar (c : Char) : Bool := c == ' ' || c == '\t' || c == '\n' || c == '\r'

/-- Rust `str::trim`. -/
def rustTrim (s : String) : String :=
  ⟨((s.toList.dropWhile wsChar).reverse.dropWhile wsChar).reverse⟩

/-- ASCII lower-casing of one character. -/
def lowerChar (c : Char) : Char :=
  if 65 ≤ c.toNat ∧ c.toNat ≤ 90 then Char.ofNat (c.toNat + 32) else c

/-- Rust `str::to_lowercase` (the recognised tags are ASCII). -/
def strToLower (s : String) : String := ⟨s.toList.map lowerChar⟩

/-- Split on every non-overlapping occurrence of `sep`, left to right (Rust
`str::split(&str)` for a non-empty separator).  Fuel-indexed by the input
length, which always suffices. -/
def splitSeqAux (sep : List Char) : Nat → List Char → List Char → List (List Char)
  | _, [], acc => [acc.reverse]
  | 0, l, acc => [acc.reverse ++ l]
  | fuel + 1, c :: tl, acc =>
      if !sep.isEmpty && leadsWith sep (c :: tl) then
        acc.reverse :: splitSeqAux sep fuel ((c :: tl).drop sep.length) []
      else splitSeqAux sep fuel tl (c :: acc)

/-- Rust `str::split(&str)` (also `split(char)` via a singleton separator). -/
def splitOnStr (s sep : String) : List String :=
  (splitSeqAux sep.toList s.toList.length s.toList []).map (⟨·⟩)

/-- Strip one trailing carriage return (Rust `str::lines` per-line behaviour). -/
def stripCR (l : List Char) : List Char :=
  match l.reverse with
  | '\r' :: r => r.reverse
  | _ => l

/-- Rust `str::lines`: split on newlines, no trailing empty line, strip `\r`. -/
def rustLines (s : String) : List String :=
  let raw := splitOnStr s "\n"
  let raw :=
    match raw.reverse with
    | [] => []
    | last :: rest => if last == "" then rest.reverse else raw
  raw.map (fun l => ⟨stripCR l.toList⟩)

/-- Decimal digit test. -/
def isDigitChar (c : Char) : Bool := 48 ≤ c.toNat && c.toNat ≤ 57

/-- Value of a decimal digit character. -/
def digitVal (c : Char) : Nat := c.toNat - 48

/-- Value of a decimal digit string (most significant first). -/
def decValue (l : List Char) : Nat := l.foldl (fun a c => 10 * a + digitVal c) 0

/-- Rust `str::parse::<u32>()`: optional `+` sign, decimal digits, u32 bound. -/
def parseU32? (s : String) : Option Nat :=
  let l := match s.toList with
    | '+' :: r => r
    | r => r
  if !l.isEmpty && l.all isDigitChar && Nat.blt (decValue l) 4294967296 then
    some (decValue l)
  else none

/-- Association-list `get`, modelling `HashMap::get` (`src/graph_state.rs` keys
are unique by construction, so first-match lookup is exact). -/
def alistGet {β : Type} (m : List (String × β)) (k : String) : Option β :=
  (m.find? (fun p => p.1 == k)).map (·.2)

/-- Association-list `insert`, modelling `HashMap::insert`: replace in place or
append.  `HashMap` iteration order is unspecified in Rust; the model iterates
in insertion order, and no claim below observes the order. -/
def alistInsert {β : Type} (m : List (String × β)) (k : String) (v : β) :
    List (String × β) :=
  if m.any (fun p => p.1 == k) then m.map (fun p => if p.1 == k then (k, v) else p)
  else m ++ [(k, v)]

/-- Association-list `remove`, modelling `HashMap::remove`. -/
def alistRemove {β : Type} (m : List (String × β)) (k : String) : List (String × β) :=
  m.eraseP (fun p => p.1 == k)

/-! ## `src/types.rs`: the closed node-type enum and DOT-side node data -/

namespace types

/-- `NodeType` (src/types.rs lines 5-13): a closed enum of semantic tags. -/
inductive NodeType where
  | Organization
  | LineOfBusiness
  | Site
  | Team
  | User
  | Default
deriving DecidableEq, Repr

/-- `NodeType::parse` (src/types.rs lines 15-27).  Rust lower-cases with
`str::to_lowercase`; the recognised tags are ASCII, modelled with
`strToLower`. -/
def NodeType.parse (s : String) : NodeType :=
  match strToLower s with
  | "organization" | "org" => .Organization
  | "lob" | "lineofbusiness" | "line_of_business" => .LineOfBusiness
  | "site" => .Site
  | "team" => .Team
  | "user" => .User
  | _ => .Default

/-- `NodeInfo` (src/types.rs lines 29-34). -/
structure NodeInfo where
  name : String
  node_type : NodeType
  level : Nat
deriving DecidableEq, Repr

/-- `GraphData` (src/types.rs lines 36-41): `petgraph::DiGraph<NodeInfo, ()>`
modelled as a node arena (index = position) plus an edge-endpoint arena,
with the id → index map. -/
structure GraphData where
  graph_nodes : List NodeInfo
  graph_edges : List (Nat × Nat)
  node_map : List (String × Nat)
deriving DecidableEq, Repr

end types

/-! ## `src/parser.rs`: the line-oriented DOT parser -/

/-- The attribute-line branch of `parse_dot_file` (src/parser.rs lines 16-42):
`node_id [type="...", level="..."];`.  Rust slices
`trimmed[node_end+1 .. rfind(']').unwrap_or(len)]` by byte offset; the model
takes the corresponding character range. -/
def parseAttrLine (trimmed : String)
    (acc : List (String × (types.NodeType × Nat))) :
    List (String × (types.NodeType × Nat)) :=
  match findCharIdx? trimmed.toList '[' with
  | some node_end =>
      let node_id := trimMatchesChar '"' (rustTrim ⟨trimmed.toList.take node_end⟩)
      let endPos := (rfindCharIdx? trimmed.toList ']').getD trimmed.toList.length
      let attrs_str : String := ⟨(trimmed.toList.take endPos).drop (node_end + 1)⟩
      let parsed := (splitOnStr attrs_str ",").foldl
        (fun (acc2 : types.NodeType × Nat) attr =>
          let parts := splitOnStr attr "="
          if parts.length == 2 then
            let key := rustTrim (parts.getD 0 "")
            let value := trimMatchesChar '"' (rustTrim (parts.getD 1 ""))
            if key == "type" then (types.NodeType.parse value, acc2.2)
            else if key == "level" then (acc2.1, (parseU32? value).getD 0)
            else acc2
          else acc2)
        (types.NodeType.Default, 0)
      alistInsert acc node_id parsed
  | none => acc

/-- The `or_insert_with` node creation of the edge pass
(src/parser.rs lines 69-91). -/
def ensureNode (nodes : List types.NodeInfo) (nmap : List (String × Nat))
    (attrs : List (String × (types.NodeType × Nat))) (name : String) :
    List types.NodeInfo × List (String × Nat) × Nat :=
  match alistGet nmap name with
  | some idx => (nodes, nmap, idx)
  | none =>
      let p := (alistGet attrs name).getD (types.NodeType.Default, 0)
      let idx := nodes.length
      (nodes ++ [⟨name, p.1, p.2⟩], alistInsert nmap name idx, idx)

/-- The edge-line branch of `parse_dot_file` (src/parser.rs lines 48-95). -/
def parseEdgeLine (trimmed : String)
    (attrs : List (String × (types.NodeType × Nat)))
    (st : List types.NodeInfo × List (String × Nat) × List (Nat × Nat)) :
    List types.NodeInfo × List (String × Nat) × List (Nat × Nat) :=
  let edge_line : String :=
    match findSeqIdx? "//".toList trimmed.toList with
    | some p => ⟨trimmed.toList.take p⟩
    | none => trimmed
  let parts := splitOnStr edge_line "->"
  if parts.length ≥ 2 then
    let fr := trimMatchesChar '"' (rustTrim (parts.getD 0 ""))
    let to_part := rustTrim (parts.getD 1 "")
    let toId :=
      match findCharIdx? to_part.toList '[' with
      | some bp => trimEndMatchesChar ';' (trimMatchesChar '"' (rustTrim ⟨to_part.toList.take bp⟩))
      | none => trimMatchesChar '"' (rustTrim (trimEndMatchesChar ';' to_part))
    let r1 := ensureNode st.1 st.2.1 attrs fr
    let r2 := ensureNode r1.1 r1.2.1 attrs toId
    (r2.1, r2.2.1, st.2.2 ++ [(r1.2.2, r2.2.2)])
  else st

/-- `parse_dot_file` (src/parser.rs lines 5-99): first pass collects node
attributes, second pass creates nodes on first reference and emits edges. -/
def parse_dot_file (content : String) : types.GraphData :=
  let lines := rustLines content
  let node_attributes := lines.foldl
    (fun acc line =>
      let trimmed := rustTrim line
      if strContainsChar trimmed '[' && strContainsChar trimmed ']' &&
          !(strContains trimmed "->") then
        parseAttrLine trimmed acc
      else acc)
    []
  let st := lines.foldl
    (fun (st : List types.NodeInfo × List (String × Nat) × List (Nat × Nat)) line =>
      let trimmed := rustTrim line
      if strContains trimmed "->" then parseEdgeLine trimmed node_attributes st
      else st)
    ([], [], [])
  ⟨st.1, st.2.2, st.2.1⟩

/-! ## `src/sources/mod.rs`: the format detector -/

/-- `detect_format` (src/sources/mod.rs lines 109-128).  Note: the second rule
tests for the SUBSTRING `"graph"` (which also subsumes `"digraph"`), not for a
standalone word. -/
def detect_format (content : String) : Option String :=
  let trimmed := rustTrim content
  if strContains trimmed "@startuml" || strContains trimmed "@startsequence" then
    some "plantuml"
  else if strContains trimmed "digraph" || strContains trimmed "graph" ||
      strContains trimmed "->" then
    some "dot"
  else if strContainsChar trimmed '[' && strContainsChar trimmed ']' then
    some "dot"
  else none

/-! ## `src/events.rs`: the event model -/

/-- `EventNodeInfo` (src/events.rs lines 4-9). -/
structure EventNodeInfo where
  name : String
  node_type : Option String
  level : Nat
deriving DecidableEq, Repr

/-- `EventEdgeInfo` (src/events.rs lines 12-17). -/
structure EventEdgeInfo where
  label : Option String
  edge_type : Option String
  sequence : Option Nat
deriving DecidableEq, Repr

/-- `GraphEvent` (src/events.rs lines 20-53).  Rust's `from`/`to` fields are
named `fr`/`tgt` (`from` and `to` are Lean keywords). -/
inductive GraphEvent where
  | AddNode (id : String) (info : EventNodeInfo)
  | UpdateNode (id : String) (info : EventNodeInfo)
  | RemoveNode (id : String)
  | AddEdge (fr tgt : String)
  | AddRichEdge (fr tgt : String) (info : EventEdgeInfo)
  | RemoveEdge (fr tgt : String)
  | Clear
  | BatchStart
  | BatchEnd
deriving DecidableEq, Repr

/-- `EventResult` (src/events.rs lines 96-108). -/
inductive EventResult where
  | Success
  | NodeExists
  | NodeNotFound
  | EdgeExists
  | EdgeNotFound
deriving DecidableEq, Repr

/-- `matches!(event, GraphEvent::BatchEnd)` (src/graph_state.rs line 34). -/
def GraphEvent.isBatchEnd : GraphEvent → Bool
  | .BatchEnd => true
  | _ => false

/-- An event is one of the two batch markers. -/
def GraphEvent.isBatchMarker : GraphEvent → Bool
  | .BatchStart => true
  | .BatchEnd => true
  | _ => false

/-! ## The `dotparser` node data stored in the live graph

`src/graph_state.rs` stores `dotparser::NodeInfo` node weights, produced from
`EventNodeInfo` via `info.into()` and cloned field-for-field by
`as_graph_data` (name, node_type, level).  The `dotparser` crate itself is not
under src/; its `NodeInfo` record is modelled with the same three fields the
repository reads and writes. -/

/-- `dotparser::NodeInfo` as used by src/graph_state.rs (fields `name`,
`node_type`, `level`, cf. `as_graph_data` lines 139-143). -/
structure NodeInfo where
  name : String
  node_type : Option String
  level : Nat
deriving DecidableEq, Repr

/-- The `info.into()` conversion used by `process_event`
(src/graph_state.rs lines 44 and 55): field-for-field. -/
def EventNodeInfo.into (i : EventNodeInfo) : NodeInfo := ⟨i.name, i.node_type, i.level⟩

/-- Modelled from the spec: the `From<&dotparser::NodeInfo>` conversion used by
`EventNodeInfo::from(node_info)` in src/sources/dot.rs line 61 (the impl lives
in the external `dotparser` crate); per the spec data model it is a
field-for-field copy. -/
def EventNodeInfo.ofNode (n : NodeInfo) : EventNodeInfo := ⟨n.name, n.node_type, n.level⟩

/-- `dotparser::GraphData` (`graph: DiGraph<NodeInfo, ()>` plus
`node_map: HashMap<String, NodeIndex>`), the type returned by
`GraphState::as_graph_data` and consumed by `DotSource::events`. -/
structure GraphData where
  graph_nodes : List NodeInfo
  graph_edges : List (Nat × Nat)
  node_map : List (String × Nat)
deriving DecidableEq, Repr

/-! ## petgraph primitives

`petgraph::graph::Graph` stores nodes and edges in arenas with contiguous
indices.  `Vec::swap_remove` semantics: removing a node (or edge) moves the
last node (edge) into the removed slot, so the last index is invalidated and
adopts the removed index — this is petgraph's documented behaviour for
`remove_node` / `remove_edge`. -/

/-- `Vec::swap_remove` at index `i` (the element at `i` is replaced by the
last element, which is popped). -/
def listSwapRemove {α : Type} (l : List α) (i : Nat) : List α :=
  match l.getLast? with
  | none => []
  | some x => (l.set i x).dropLast

/-- `Graph::find_edge(a, b)` for a directed graph: the unique edge `(a, b)`
if present.  petgraph walks `a`'s adjacency list; the model scans the edge
arena.  Both agree on `Option.isSome`, and duplicate `(a, b)` edges never
arise (proved below), so the scan order is unobservable. -/
def findEdge (edges : List (Nat × Nat)) (a b : Nat) : Option Nat :=
  edges.findIdx? (fun e => e == (a, b))

/-- `Graph::remove_node(a)`: no-op when `a` is out of bounds; otherwise remove
every incident edge, swap-remove the node, and renumber the old last node
index to `a` inside the surviving edges.  petgraph removes the incident edges
one at a time through adjacency lists (each via edge swap-remove); the model
keeps the survivors in arena order — the surviving edge multiset is the same
and no claim below observes the edge arena order. -/
def removeNodeGraph (nodes : List NodeInfo) (edges : List (Nat × Nat)) (a : Nat) :
    List NodeInfo × List (Nat × Nat) :=
  if a < nodes.length then
    let edges1 := edges.filter (fun e => e.1 != a && e.2 != a)
    let nodes1 := listSwapRemove nodes a
    let lastIdx := nodes.length - 1
    let edges2 := edges1.map (fun e =>
      (if e.1 == lastIdx then a else e.1, if e.2 == lastIdx then a else e.2))
    (nodes1, edges2)
  else (nodes, edges)

/-! ## `src/graph_state.rs`: the graph state machine -/

/-- `GraphState` (src/graph_state.rs lines 9-18). -/
structure GraphState where
  graph_nodes : List NodeInfo
  graph_edges : List (Nat × Nat)
  node_map : List (String × Nat)
  in_batch : Bool
  batch_events : List GraphEvent
deriving DecidableEq, Repr

/-- `GraphState::new` (src/graph_state.rs lines 22-29). -/
def GraphState.new : GraphState := ⟨[], [], [], false, []⟩

/-- The non-batch arms of the `process_event` match
(src/graph_state.rs lines 39-106), acting on the graph/map components.
Returns `none` exactly where the Rust code panics: `Graph::add_edge` panics
when an endpoint index is invalid (reachable through stale `node_map` indices
left behind by `RemoveNode`, see the C3 analysis).

The `AddRichEdge` arm is absent from the Rust match (which covers only 8 of
the 9 `GraphEvent` variants); it is Modelled from the spec: §3 "At most one
edge per ordered (from, to) pair (`AddEdge`/`AddRichEdge` on an existing pair
is rejected)", with the edge stored unit-weighted exactly like `AddEdge`
(the live graph is `DiGraph<NodeInfo, ()>` and cannot carry the rich info).

The `BatchStart`/`BatchEnd` arms are handled by `runEvents` below and the
fall-through here is unreachable from it. -/
def apply_core (s : GraphState) (e : GraphEvent) :
    Option (List NodeInfo × List (Nat × Nat) × List (String × Nat) × EventResult) :=
  match e with
  | .AddNode id info =>
      if (alistGet s.node_map id).isSome then
        some (s.graph_nodes, s.graph_edges, s.node_map, .NodeExists)
      else
        some (s.graph_nodes ++ [info.into], s.graph_edges,
          alistInsert s.node_map id s.graph_nodes.length, .Success)
  | .UpdateNode id info =>
      match alistGet s.node_map id with
      | some idx =>
          if idx < s.graph_nodes.length then
            some (s.graph_nodes.set idx info.into, s.graph_edges, s.node_map, .Success)
          else some (s.graph_nodes, s.graph_edges, s.node_map, .NodeNotFound)
      | none => some (s.graph_nodes, s.graph_edges, s.node_map, .NodeNotFound)
  | .RemoveNode id =>
      match alistGet s.node_map id with
      | some idx =>
          let g := removeNodeGraph s.graph_nodes s.graph_edges idx
          some (g.1, g.2, alistRemove s.node_map id, .Success)
      | none => some (s.graph_nodes, s.graph_edges, s.node_map, .NodeNotFound)
  | .AddEdge fr tgt =>
      match alistGet s.node_map fr, alistGet s.node_map tgt with
      | some fi, some ti =>
          if (findEdge s.graph_edges fi ti).isSome then
            some (s.graph_nodes, s.graph_edges, s.node_map, .EdgeExists)
          else if fi < s.graph_nodes.length ∧ ti < s.graph_nodes.length then
            some (s.graph_nodes, s.graph_edges ++ [(fi, ti)], s.node_map, .Success)
          else none
      | _, _ => some (s.graph_nodes, s.graph_edges, s.node_map, .NodeNotFound)
  | .AddRichEdge fr tgt _ =>
      match alistGet s.node_map fr, alistGet s.node_map tgt with
      | some fi, some ti =>
          if (findEdge s.graph_edges fi ti).isSome then
            some (s.graph_nodes, s.graph_edges, s.node_map, .EdgeExists)
          else if fi < s.graph_nodes.length ∧ ti < s.graph_nodes.length then
            some (s.graph_nodes, s.graph_edges ++ [(fi, ti)], s.node_map, .Success)
          else none
      | _, _ => some (s.graph_nodes, s.graph_edges, s.node_map, .NodeNotFound)
  | .RemoveEdge fr tgt =>
      match alistGet s.node_map fr, alistGet s.node_map tgt with
      | some fi, some ti =>
          match findEdge s.graph_edges fi ti with
          | some eidx =>
              some (s.graph_nodes, listSwapRemove s.graph_edges eidx, s.node_map, .Success)
          | none => some (s.graph_nodes, s.graph_edges, s.node_map, .EdgeNotFound)
      | _, _ => some (s.graph_nodes, s.graph_edges, s.node_map, .NodeNotFound)
  | .Clear => some ([], [], [], .Success)
  | .BatchStart => some (s.graph_nodes, s.graph_edges, s.node_map, .Success)
  | .BatchEnd => some (s.graph_nodes, s.graph_edges, s.node_map, .Success)

/-- The re-entrant event loop of `GraphState::process_event`
(src/graph_state.rs lines 32-124) as a worklist machine.

Each task is an event together with a flag saying whether its `EventResult`
is recorded.  The Rust `BatchEnd` arm drains the queued events by recursive
`process_event` calls, discarding their results, before anything after the
`BatchEnd` runs; the worklist machine performs the identical sequence of
primitive steps by prepending the drained queue (silently, flag `false`) to
the remaining tasks.  `none` propagates a petgraph panic (see `apply_core`).

Lines mirrored per case: queueing (34-37), `BatchStart` (108-112),
`BatchEnd` (114-122), everything else `apply_core` (39-106). -/
def runEvents (s : GraphState) (tasks : List (Bool × GraphEvent)) :
    Option (GraphState × List EventResult) :=
  match tasks with
  | [] => some (s, [])
  | (rcd, e) :: rest =>
    if s.in_batch && !e.isBatchEnd then
      let s' := { s with batch_events := s.batch_events ++ [e] }
      (runEvents s' rest).map (fun p => (p.1, if rcd then .Success :: p.2 else p.2))
    else
      match e with
      | .BatchStart =>
          let s' := { s with in_batch := true, batch_events := [] }
          (runEvents s' rest).map (fun p => (p.1, if rcd then .Success :: p.2 else p.2))
      | .BatchEnd =>
          let q := s.batch_events
          let s' := { s with in_batch := false, batch_events := [] }
          (runEvents s' (q.map (fun ev => (false, ev)) ++ rest)).map
            (fun p => (p.1, if rcd then .Success :: p.2 else p.2))
      | _ =>
          match apply_core s e with
          | none => none
          | some (n, ed, m, r) =>
              let s' := { s with graph_nodes := n, graph_edges := ed, node_map := m }
              (runEvents s' rest).map (fun p => (p.1, if rcd then r :: p.2 else p.2))
  termination_by (s.batch_events.length + tasks.length, tasks.length)
  decreasing_by
    all_goals simp only [Prod.lex_def, List.length_append, List.length_cons,
      List.length_map, List.length_nil]
    all_goals omega

/-- `GraphState::process_event` (src/graph_state.rs lines 32-124): run the
single event; `none` models a petgraph panic. -/
def process_event (s : GraphState) (e : GraphEvent) : Option (GraphState × EventResult) :=
  (runEvents s [(true, e)]).map (fun p => (p.1, p.2.headD .Success))

/-- `GraphState::process_events` (src/graph_state.rs lines 127-129): one
recorded outcome per input event, in order. -/
def process_events (s : GraphState) (events : List GraphEvent) :
    Option (GraphState × List EventResult) :=
  runEvents s (events.map (fun e => (true, e)))

/-- `GraphState::as_graph_data` (src/graph_state.rs lines 132-177): rebuild a
standalone graph by copying every mapped, still-present node, then re-insert
each live edge by reverse id lookup. -/
def as_graph_data (s : GraphState) : GraphData :=
  let nm := s.node_map.foldl
    (fun (acc : List NodeInfo × List (String × Nat)) p =>
      match s.graph_nodes[p.2]? with
      | some ni =>
          (acc.1 ++ [⟨ni.name, ni.node_type, ni.level⟩], alistInsert acc.2 p.1 acc.1.length)
      | none => acc)
    ([], [])
  let newEdges := s.graph_edges.foldl
    (fun (acc : List (Nat × Nat)) e =>
      let from_id := (s.node_map.find? (fun p => p.2 == e.1)).map (·.1)
      let to_id := (s.node_map.find? (fun p => p.2 == e.2)).map (·.1)
      match from_id, to_id with
      | some fi, some ti =>
          match alistGet nm.2 fi, alistGet nm.2 ti with
          | some nf, some nt => acc ++ [(nf, nt)]
          | _, _ => acc
      | _, _ => acc)
    []
  ⟨nm.1, newEdges, nm.2⟩

/-- `GraphState::node_count` (src/graph_state.rs lines 181-183). -/
def GraphState.node_count (s : GraphState) : Nat := s.graph_nodes.length

/-- `GraphState::edge_count` (src/graph_state.rs lines 187-189). -/
def GraphState.edge_count (s : GraphState) : Nat := s.graph_edges.length

/-- `GraphState::get_node` (src/graph_state.rs lines 193-197). -/
def GraphState.get_node (s : GraphState) (id : String) : Option NodeInfo :=
  (alistGet s.node_map id).bind (fun i => s.graph_nodes[i]?)

/-! ## `src/sources/plantuml.rs`: participant conversion -/

namespace plantuml

/-- Modelled from the spec: `dotparser::Position`, the optional position hint
matched by `PlantUMLSource::events` (src/sources/plantuml.rs lines 61-65) —
a sequential position (participant declaration order) or an explicit layer. -/
inductive Position where
  | Sequential (order : Nat)
  | Layer (level : Nat)
deriving DecidableEq, Repr

/-- Modelled from the spec: the `dotparser::NodeType` participant kinds
matched by `PlantUMLSource::events` (src/sources/plantuml.rs lines 51-60);
`Other` stands for the kinds reaching the `_ => None` arm. -/
inductive PKind where
  | Custom (t : String)
  | Actor (actor_type : String)
  | DataStore
  | Process
  | External
  | Other
deriving DecidableEq, Repr

/-- The `node_type` derivation of `PlantUMLSource::events`
(src/sources/plantuml.rs lines 51-60). -/
def participant_node_type : PKind → Option String
  | .Custom t => some t
  | .Actor a => some ("actor:" ++ a)
  | .DataStore => some "database"
  | .Process => some "process"
  | .External => some "external"
  | .Other => none

/-- The `level` derivation of `PlantUMLSource::events`
(src/sources/plantuml.rs lines 61-65): `Sequential` collapses to 0, `Layer`
uses the explicit number, and the fall-through arm (in particular an absent
position) yields 1. -/
def participant_level : Option Position → Nat
  | some (.Sequential _) => 0
  | some (.Layer level) => level
  | _ => 1

end plantuml

/-! ## `src/sources/dot.rs`: `DotSource::events` -/

/-- Decimal digits of `n`, most significant first (fuel-indexed; `n + 1`
digits always suffice). -/
def natToStrAux : Nat → Nat → List Char
  | 0, _ => []
  | fuel + 1, n =>
      if n < 10 then [Char.ofNat (48 + n)]
      else natToStrAux fuel (n / 10) ++ [Char.ofNat (48 + n % 10)]

/-- Rust `format!("{}", n)` for an unsigned integer: decimal digits. -/
def natToStr (n : Nat) : String := ⟨natToStrAux (n + 1) n⟩

/-- `format!("{}_{}", node_id, counter)` (src/sources/dot.rs lines 47, 50). -/
def dupCandidate (name : String) (k : Nat) : String := name ++ "_" ++ natToStr k

/-- The candidate search loop of `DotSource::events`
(src/sources/dot.rs lines 46-52), fuel-indexed. -/
def disambigAux (seen : List String) (name : String) : Nat → Nat → String
  | k, 0 => dupCandidate name k
  | k, fuel + 1 =>
      let cand := dupCandidate name k
      if seen.contains cand then disambigAux seen name (k + 1) fuel else cand

/-- The duplicate-name disambiguation of `DotSource::events`
(src/sources/dot.rs lines 44-55): try `name_2`, `name_3`, … until the
candidate is not in `seen`.  The Rust loop is unbounded; `seen.length + 1`
attempts provably suffice (`disambig_not_mem` below), making the fuel-
exhausted branch unreachable. -/
def disambig (seen : List String) (name : String) : String :=
  disambigAux seen name 2 (seen.length + 1)

/-- The node pass of `DotSource::events` (src/sources/dot.rs lines 38-64):
one `AddNode` per graph node, in index order, with duplicate display names
disambiguated against the set of already-assigned ids. -/
def dotNodeEvents : List NodeInfo → List String → List GraphEvent
  | [], _ => []
  | n :: rest, seen =>
      let final_id := if seen.contains n.name then disambig seen n.name else n.name
      .AddNode final_id (EventNodeInfo.ofNode n) :: dotNodeEvents rest (final_id :: seen)

/-- The edge pass of `DotSource::events` (src/sources/dot.rs lines 66-80):
one `AddEdge` per graph edge, in index order, using the endpoint nodes'
DISPLAY NAMES (not the disambiguated ids) as the event ids. -/
def dotEdgeEvents (gd : GraphData) : List GraphEvent :=
  gd.graph_edges.filterMap (fun e =>
    match gd.graph_nodes[e.1]?, gd.graph_nodes[e.2]? with
    | some nf, some nt => some (.AddEdge nf.name nt.name)
    | _, _ => none)

/-- `DotSource::events` (src/sources/dot.rs lines 28-86) as a function of the
parsed graph: `BatchStart`, the node pass, the edge pass, `BatchEnd`.
The Rust function returns `Ok(events)` unconditionally. -/
def dotsource_events (gd : GraphData) : List GraphEvent :=
  GraphEvent.BatchStart ::
    (dotNodeEvents gd.graph_nodes [] ++ dotEdgeEvents gd ++ [GraphEvent.BatchEnd])

/-- Modelled from the spec: the open-string `node_type` tag of the external
`dotparser` crate corresponding to each recognised closed tag of the in-repo
parser (spec §4.3: the recognised `type=<string>` attribute, default
none/unspecified). -/
def nodeTypeTag : types.NodeType → Option String
  | .Organization => some "organization"
  | .LineOfBusiness => some "lob"
  | .Site => some "site"
  | .Team => some "team"
  | .User => some "user"
  | .Default => none

/-- Bridge from the in-repo parser's graph to the `dotparser`-shaped graph
consumed by `DotSource::events`. -/
def toDotGraphData (g : types.GraphData) : GraphData :=
  ⟨g.graph_nodes.map (fun n => ⟨n.name, nodeTypeTag n.node_type, n.level⟩),
    g.graph_edges, g.node_map⟩

/-- `DotSource::events` on raw text.  `DotSource::events` calls
`dotparser::dot::parse`, the extracted crate form of the in-repo
`parse_dot_file` (src/parser.rs, cited by the spec for the DOT parsing
contract); the model composes that parser with the event assembly. -/
def DotSource_events (content : String) : List GraphEvent :=
  dotsource_events (toDotGraphData (parse_dot_file content))

/-! ## Derived definitions used by the statements below -/

/-- Left-to-right fold of the non-batch arms of `process_event`
(`src/graph_state.rs`): the reference behaviour of a batch-marker-free event
sequence processed outside a batch (spec §4.5: `process_events` is the fold of
`process_event`).  `none` propagates a petgraph panic. -/
def apply_list (s : GraphState) : List GraphEvent → Option (GraphState × List EventResult)
  | [] => some (s, [])
  | e :: rest =>
      match apply_core s e with
      | none => none
      | some (n, ed, m, r) =>
          (apply_list { s with graph_nodes := n, graph_edges := ed, node_map := m } rest).map
            (fun p => (p.1, r :: p.2))

/-- The id list assigned by the node pass of `DotSource::events`
(the `final_id` values of src/sources/dot.rs lines 44-57, in node order). -/
def dotNodeIds : List NodeInfo → List String → List String
  | [], _ => []
  | n :: rest, seen =>
      let final_id := if seen.contains n.name then disambig seen n.name else n.name
      final_id :: dotNodeIds rest (final_id :: seen)

/-- Spec §4.2 rule 1: the text contains a PlantUML start marker. -/
def has_plantuml_marker (t : String) : Bool :=
  strContains t "@startuml" || strContains t "@startsequence"

/-- Spec §4.2 rule 2 (as amended): the text contains `digraph`, the substring
`graph` anywhere, or the edge operator `->`. -/
def has_dot_marker (t : String) : Bool :=
  strContains t "digraph" || strContains t "graph" || strContains t "->"

/-- Spec §4.2 rule 3: the text contains both `[` and `]`. -/
def has_attr_brackets (t : String) : Bool :=
  strContainsChar t '[' && strContainsChar t ']'

/-- A two-node graph state with the edge `(0, 1)` already present
(reachable from `GraphState.new` by two `AddNode`s and an `AddEdge`). -/
def edgeState : GraphState :=
  ⟨[⟨"A", none, 0⟩, ⟨"B", none, 0⟩], [(0, 1)], [("A", 0), ("B", 1)], false, []⟩

/-- The state reached from `GraphState.new` by
`[AddNode "P", AddNode "Q", RemoveNode "P"]`: the queue entry for `"Q"` still
holds the stale petgraph index 1 although `"Q"`'s node now lives at index 0. -/
def staleState : GraphState :=
  ⟨[⟨"Q", none, 0⟩], [], [("Q", 1)], false, []⟩

/-- A one-node graph state with a coherent map (used to witness the amended
`UpdateNode` contract). -/
def oneNodeState : GraphState :=
  ⟨[⟨"N", none, 0⟩], [], [("N", 0)], false, []⟩

/-- A parsed DOT graph whose third node's display name `"X_2"` equals the
disambiguated id assigned to the second node (both earlier nodes are named
`"X"`), and whose single edge targets that third node. -/
def gd9 : GraphData :=
  ⟨[⟨"X", none, 0⟩, ⟨"X", none, 0⟩, ⟨"X_2", none, 0⟩], [(0, 2)], []⟩

/-- A parsed DOT graph with two nodes sharing the display name `"A"` and one
edge, whose disambiguated id `"A_2"` collides with no display name. -/
def gd_w : GraphData := ⟨[⟨"A", none, 0⟩, ⟨"A", none, 0⟩], [(0, 1)], []⟩

/-! ## Helper lemmas: unfolding the worklist machine -/

theorem runEvents_nil (s : GraphState) : runEvents s [] = some (s, []) := by
  rw [runEvents]

theorem runEvents_queue (s : GraphState) (rcd : Bool) (e : GraphEvent)
    (rest : List (Bool × GraphEvent)) (h : s.in_batch = true) (he : e.isBatchEnd = false) :
    runEvents s ((rcd, e) :: rest) =
      (runEvents { s with batch_events := s.batch_events ++ [e] } rest).map
        (fun p => (p.1, if rcd then .Success :: p.2 else p.2)) := by
  cases e
  case BatchEnd => simp [GraphEvent.isBatchEnd] at he
  all_goals
    rw [runEvents, if_pos (by simp [h, GraphEvent.isBatchEnd])] <;> simp [h]

theorem runEvents_start (s : GraphState) (rcd : Bool) (rest : List (Bool × GraphEvent))
    (h : s.in_batch = false) :
    runEvents s ((rcd, .BatchStart) :: rest) =
      (runEvents { s with in_batch := true, batch_events := [] } rest).map
        (fun p => (p.1, if rcd then .Success :: p.2 else p.2)) := by
  rw [runEvents, if_neg (by simp [h])]

theorem runEvents_end (s : GraphState) (rcd : Bool) (rest : List (Bool × GraphEvent)) :
    runEvents s ((rcd, .BatchEnd) :: rest) =
      (runEvents { s with in_batch := false, batch_events := [] }
          (s.batch_events.map (fun ev => (false, ev)) ++ rest)).map
        (fun p => (p.1, if rcd then .Success :: p.2 else p.2)) := by
  rw [runEvents, if_neg (by simp [GraphEvent.isBatchEnd])]

theorem runEvents_step (s : GraphState) (rcd : Bool) (e : GraphEvent)
    (rest : List (Bool × GraphEvent)) (h : s.in_batch = false) (he : e.isBatchMarker = false) :
    runEvents s ((rcd, e) :: rest) =
      match apply_core s e with
      | none => none
      | some (n, ed, m, r) =>
          (runEvents { s with graph_nodes := n, graph_edges := ed, node_map := m } rest).map
            (fun p => (p.1, if rcd then r :: p.2 else p.2)) := by
  cases e
  case BatchStart => simp [GraphEvent.isBatchMarker] at he
  case BatchEnd => simp [GraphEvent.isBatchMarker] at he
  all_goals
    rw [runEvents, if_neg (by simp [h])] <;> simp [h] <;> rfl

/-- Outside a batch, a run of batch-marker-free events is the plain fold
`apply_list`, with silent events contributing no recorded outcome. -/
theorem runEvents_flat (b : Bool) (es : List GraphEvent) : ∀ (s : GraphState)
    (rest : List (Bool × GraphEvent)), s.in_batch = false →
    (∀ e ∈ es, e.isBatchMarker = false) →
    runEvents s (es.map (fun e => (b, e)) ++ rest) =
      (apply_list s es).bind (fun p =>
        (runEvents p.1 rest).map (fun q => (q.1, (if b then p.2 else []) ++ q.2))) := by
  induction es with
  | nil =>
      intro s rest h _
      cases hr : runEvents s rest <;> simp [apply_list, hr]
  | cons e tl ih =>
      intro s rest h hm
      have he : e.isBatchMarker = false := hm e (by simp)
      rw [List.map_cons, List.cons_append, runEvents_step s b e _ h he]
      cases hc : apply_core s e with
      | none => simp [apply_list, hc]
      | some v =>
          obtain ⟨n, ed, m, r⟩ := v
          dsimp only
          rw [ih _ _ (by simp [h]) (fun x hx => hm x (by simp [hx]))]
          simp only [apply_list, hc]
          cases hl : apply_list { s with graph_nodes := n, graph_edges := ed, node_map := m } tl with
          | none => simp
          | some p =>
              cases hr : runEvents p.1 rest with
              | none => simp [hr]
              | some q => cases b <;> simp [hr]

/-- Inside a batch, every event except `BatchEnd` is queued in arrival order
and reported as `Success`. -/
theorem runEvents_enqueue (b : Bool) (es : List GraphEvent) : ∀ (s : GraphState)
    (rest : List (Bool × GraphEvent)), s.in_batch = true →
    (∀ e ∈ es, e.isBatchEnd = false) →
    runEvents s (es.map (fun e => (b, e)) ++ rest) =
      (runEvents { s with batch_events := s.batch_events ++ es } rest).map
        (fun q => (q.1, (if b then List.replicate es.length .Success else []) ++ q.2)) := by
  induction es with
  | nil =>
      intro s rest h _
      cases hr : runEvents s rest <;> cases s <;> simp_all <;> cases b <;> simp [hr]
  | cons e tl ih =>
      intro s rest h hm
      rw [List.map_cons, List.cons_append, runEvents_queue s b e _ h (hm e (by simp))]
      rw [ih _ _ (by simp [h]) (fun x hx => hm x (by simp [hx]))]
      have hap : s.batch_events ++ [e] ++ tl = s.batch_events ++ (e :: tl) := by simp
      rw [hap]
      cases hr : runEvents { s with batch_events := s.batch_events ++ (e :: tl) } rest with
      | none => simp
      | some q => cases b <;> simp [List.replicate_succ]

/-- Outside a batch, `process_events` on a batch-marker-free sequence is the
plain fold `apply_list`. -/
theorem process_events_flat (s : GraphState) (es : List GraphEvent)
    (h : s.in_batch = false) (hm : ∀ e ∈ es, e.isBatchMarker = false) :
    process_events s es = apply_list s es := by
  unfold process_events
  have hf := runEvents_flat true es s [] h hm
  rw [List.append_nil] at hf
  rw [hf]
  cases hl : apply_list s es with
  | none => simp
  | some p => simp [runEvents_nil]

/-- Wrapping a batch-marker-free sequence in `BatchStart` … `BatchEnd` and
processing it from a quiescent state applies the same fold to the state but
reports `Success` for every event, the queued ones included. -/
theorem process_events_batched (s : GraphState) (es : List GraphEvent)
    (h : s.in_batch = false) (hb : s.batch_events = [])
    (hm : ∀ e ∈ es, e.isBatchMarker = false) :
    process_events s (.BatchStart :: (es ++ [.BatchEnd])) =
      (apply_list s es).map (fun p => (p.1, List.replicate (es.length + 2) .Success)) := by
  unfold process_events
  rw [List.map_cons, runEvents_start _ _ _ h, List.map_append]
  rw [runEvents_enqueue true es _ _ (by simp) (fun x hx => by
    have := hm x hx
    cases x <;> simp_all [GraphEvent.isBatchMarker, GraphEvent.isBatchEnd])]
  simp only [List.map_cons, List.map_nil]
  rw [runEvents_end]
  simp only [List.append_nil]
  have hs : ({ s with in_batch := true, batch_events := [] } : GraphState).batch_events ++ es = es := by simp
  rw [hs]
  have hse : ({ s with in_batch := false, batch_events := [] } : GraphState) = s := by
    cases s
    simp_all
  have hf := runEvents_flat false es s [] h hm
  rw [List.append_nil] at hf
  rw [hse, hf]
  cases hl : apply_list s es with
  | none => simp
  | some p =>
      simp only [Option.bind, runEvents_nil, Option.map, if_true]
      simp [List.replicate_succ, ← List.replicate_succ']

/-- Outside a batch, `process_event` on a non-marker event is one `apply_core`
step. -/
theorem process_event_step (s : GraphState) (e : GraphEvent)
    (h : s.in_batch = false) (he : e.isBatchMarker = false) :
    process_event s e = (apply_core s e).map
      (fun v => ({ s with graph_nodes := v.1, graph_edges := v.2.1, node_map := v.2.2.1 }, v.2.2.2)) := by
  unfold process_event
  rw [runEvents_step s true e [] h he]
  cases hc : apply_core s e with
  | none => simp
  | some v =>
      obtain ⟨n, ed, m, r⟩ := v
      simp [runEvents_nil]

/-! ## Helper lemmas: the at-most-one-edge-per-pair invariant -/

theorem listSwapRemove_perm {α : Type} : ∀ (l : List α) (i : Nat), i < l.length →
    (listSwapRemove l i).Perm (l.eraseIdx i)
  | [], i, hi => by simp at hi
  | a :: tl, 0, _ => by
      cases tl with
      | nil => simp [listSwapRemove]
      | cons b tl2 =>
          have hne : (b :: tl2) ≠ [] := by simp
          have hgl : (a :: b :: tl2).getLast? = some ((b :: tl2).getLast hne) := by
            rw [List.getLast?_cons_cons, List.getLast?_eq_getLast_of_ne_nil hne]
          unfold listSwapRemove
          rw [hgl]
          dsimp only
          simp only [List.set_cons_zero, List.eraseIdx_cons_zero]
          have hd : ((b :: tl2).getLast hne :: b :: tl2).dropLast =
              (b :: tl2).getLast hne :: (b :: tl2).dropLast := rfl
          rw [hd]
          have h1 : ((b :: tl2).getLast hne :: (b :: tl2).dropLast).Perm
              ((b :: tl2).dropLast ++ [(b :: tl2).getLast hne]) :=
            @List.perm_append_comm _ [(b :: tl2).getLast hne] ((b :: tl2).dropLast)
          have h2 : (b :: tl2).dropLast ++ [(b :: tl2).getLast hne] = b :: tl2 :=
            List.dropLast_append_getLast hne
          rw [h2] at h1
          exact h1
  | a :: tl, i + 1, hi => by
      have hitl : i < tl.length := by
        simp at hi
        omega
      have hne : tl ≠ [] := by
        intro h
        subst h
        simp at hitl
      have hgl : (a :: tl).getLast? = some (tl.getLast hne) := by
        cases tl with
        | nil => simp at hne
        | cons b tl2 =>
            rw [List.getLast?_cons_cons, List.getLast?_eq_getLast_of_ne_nil]
      have hgl2 : tl.getLast? = some (tl.getLast hne) := List.getLast?_eq_getLast_of_ne_nil hne
      unfold listSwapRemove
      rw [hgl]
      dsimp only
      simp only [List.set_cons_succ, List.eraseIdx_cons_succ]
      have hsetne : tl.set i (tl.getLast hne) ≠ [] := by
        intro h
        have hlen : tl.length = 0 := by simpa using congrArg List.length h
        omega
      have hd : (a :: tl.set i (tl.getLast hne)).dropLast =
          a :: (tl.set i (tl.getLast hne)).dropLast := by
        cases hs : tl.set i (tl.getLast hne) with
        | nil => exact absurd hs hsetne
        | cons c cs => rfl
      rw [hd]
      have ih := listSwapRemove_perm tl i hitl
      unfold listSwapRemove at ih
      rw [hgl2] at ih
      dsimp only at ih
      exact List.Perm.cons a ih

theorem listSwapRemove_nodup {α : Type} (l : List α) (i : Nat) (h : l.Nodup) :
    (listSwapRemove l i).Nodup := by
  rcases Nat.lt_or_ge i l.length with hi | hi
  · exact ((listSwapRemove_perm l i hi).nodup_iff).mpr ((l.eraseIdx_sublist i).nodup h)
  · unfold listSwapRemove
    cases hgl : l.getLast? with
    | none => simp
    | some x =>
        dsimp only
        rw [List.set_eq_of_length_le (by omega)]
        exact (List.dropLast_sublist l).nodup h

theorem findEdge_none_not_mem (edges : List (Nat × Nat)) (a b : Nat)
    (h : findEdge edges a b = none) : (a, b) ∉ edges := by
  intro hm
  unfold findEdge at h
  rw [List.findIdx?_eq_none_iff] at h
  have := h _ hm
  simp at this

theorem nodup_concat_of_findEdge_none (edges : List (Nat × Nat)) (fi ti : Nat)
    (h : edges.Nodup) (hfe : findEdge edges fi ti = none) :
    (edges ++ [(fi, ti)]).Nodup := by
  rw [List.nodup_append]
  refine ⟨h, List.nodup_singleton _, ?_⟩
  intro x hx hx2
  simp at hx2
  subst hx2
  exact findEdge_none_not_mem _ _ _ hfe hx

/-- `remove_node` keeps the surviving edge pairs duplicate-free: the survivors
exclude the removed index, and the last-index renumbering is injective on
them. -/
theorem removeNodeGraph_edges_nodup (nodes : List NodeInfo) (edges : List (Nat × Nat))
    (a : Nat) (h : edges.Nodup) : (removeNodeGraph nodes edges a).2.Nodup := by
  unfold removeNodeGraph
  split
  · dsimp only
    apply List.Nodup.map_on
    · intro x hx y hy hxy
      have hx' := (List.mem_filter.mp hx).2
      have hy' := (List.mem_filter.mp hy).2
      simp only [bne_iff_ne, ne_eq, Bool.and_eq_true, decide_eq_true_eq] at hx' hy'
      obtain ⟨x1, x2⟩ := x
      obtain ⟨y1, y2⟩ := y
      have h1 := congrArg Prod.fst hxy
      have h2 := congrArg Prod.snd hxy
      simp only [beq_iff_eq] at h1 h2
      simp only [Prod.mk.injEq]
      constructor
      · split_ifs at h1 <;> omega
      · split_ifs at h2 <;> omega
    · exact h.filter _
  · exact h

/-- Every arm of the `process_event` match preserves the
one-edge-per-ordered-pair invariant of the edge arena. -/
theorem apply_core_edges_nodup (s : GraphState) (e : GraphEvent)
    (h : s.graph_edges.Nodup) :
    ∀ n ed m r, apply_core s e = some (n, ed, m, r) → ed.Nodup := by
  intro n ed m r hc
  cases e
  case AddNode id info =>
    simp only [apply_core, Option.some.injEq, Prod.mk.injEq] at hc
    split at hc <;> simp_all
  case UpdateNode id info =>
    rcases hg : alistGet s.node_map id with _ | idx <;>
      simp only [apply_core, hg, Option.some.injEq, Prod.mk.injEq] at hc
    · simp_all
    · split at hc <;> simp_all
  case RemoveNode id =>
    rcases hg : alistGet s.node_map id with _ | idx <;>
      simp only [apply_core, hg, Option.some.injEq, Prod.mk.injEq] at hc
    · simp_all
    · obtain ⟨-, he, -⟩ := hc
      exact he ▸ removeNodeGraph_edges_nodup s.graph_nodes s.graph_edges idx h
  case AddEdge fr tgt =>
    rcases hf : alistGet s.node_map fr with _ | fi <;>
      rcases ht : alistGet s.node_map tgt with _ | ti <;>
      simp only [apply_core, hf, ht, Option.some.injEq, Prod.mk.injEq] at hc
    case some.some =>
      rcases hfe : findEdge s.graph_edges fi ti with _ | j <;>
        simp only [hfe, Option.isSome_none, Option.isSome_some, Bool.false_eq_true,
          if_false, if_true, Option.some.injEq, Prod.mk.injEq] at hc
      case none =>
        split at hc
        · simp only [Option.some.injEq, Prod.mk.injEq] at hc
          obtain ⟨-, he, -⟩ := hc
          exact he ▸ nodup_concat_of_findEdge_none _ _ _ h hfe
        · cases hc
      case some => simp_all
    all_goals simp_all
  case AddRichEdge fr tgt info =>
    rcases hf : alistGet s.node_map fr with _ | fi <;>
      rcases ht : alistGet s.node_map tgt with _ | ti <;>
      simp only [apply_core, hf, ht, Option.some.injEq, Prod.mk.injEq] at hc
    case some.some =>
      rcases hfe : findEdge s.graph_edges fi ti with _ | j <;>
        simp only [hfe, Option.isSome_none, Option.isSome_some, Bool.false_eq_true,
          if_false, if_true, Option.some.injEq, Prod.mk.injEq] at hc
      case none =>
        split at hc
        · simp only [Option.some.injEq, Prod.mk.injEq] at hc
          obtain ⟨-, he, -⟩ := hc
          exact he ▸ nodup_concat_of_findEdge_none _ _ _ h hfe
        · cases hc
      case some => simp_all
    all_goals simp_all
  case RemoveEdge fr tgt =>
    rcases hf : alistGet s.node_map fr with _ | fi <;>
      rcases ht : alistGet s.node_map tgt with _ | ti <;>
      simp only [apply_core, hf, ht, Option.some.injEq, Prod.mk.injEq] at hc
    case some.some =>
      rcases hfe : findEdge s.graph_edges fi ti with _ | j <;>
        simp only [hfe, Option.some.injEq, Prod.mk.injEq] at hc
      case none => simp_all
      case some =>
        obtain ⟨-, he, -⟩ := hc
        exact he ▸ listSwapRemove_nodup s.graph_edges j h
    all_goals simp_all
  case Clear =>
    simp only [apply_core, Option.some.injEq, Prod.mk.injEq] at hc
    simp_all
  case BatchStart =>
    simp only [apply_core, Option.some.injEq, Prod.mk.injEq] at hc
    simp_all
  case BatchEnd =>
    simp only [apply_core, Option.some.injEq, Prod.mk.injEq] at hc
    simp_all

/-- The worklist machine preserves the one-edge-per-ordered-pair invariant. -/
theorem runEvents_edges_nodup (s : GraphState) (tasks : List (Bool × GraphEvent)) :
    ∀ out, s.graph_edges.Nodup → runEvents s tasks = some out →
      out.1.graph_edges.Nodup := by
  induction s, tasks using runEvents.induct with
  | case1 s =>
      intro out h hr
      rw [runEvents_nil] at hr
      cases hr
      exact h
  | case2 s rcd e rest hcond s' ih =>
      intro out h hr
      have hib : s.in_batch = true := ((Bool.and_eq_true ..).mp hcond).1
      have hbe : e.isBatchEnd = false := by
        simpa using ((Bool.and_eq_true ..).mp hcond).2
      rw [runEvents_queue s rcd e rest hib hbe] at hr
      cases ho : runEvents { s with batch_events := s.batch_events ++ [e] } rest with
      | none => rw [ho] at hr; cases hr
      | some q =>
          rw [ho] at hr
          simp only [Option.map, Option.some.injEq] at hr
          have hq := ih q h ho
          cases hr
          exact hq
  | case3 s rcd rest s' hcond ih =>
      intro out h hr
      have hib : s.in_batch = false := by
        cases hsb : s.in_batch
        · rfl
        · exact absurd (by simp [hsb, GraphEvent.isBatchEnd]) hcond
      rw [runEvents_start s rcd rest hib] at hr
      cases ho : runEvents { s with in_batch := true, batch_events := [] } rest with
      | none => rw [ho] at hr; cases hr
      | some q =>
          rw [ho] at hr
          simp only [Option.map, Option.some.injEq] at hr
          have hq := ih q h ho
          cases hr
          exact hq
  | case4 s rcd rest q s' hcond ih =>
      intro out h hr
      rw [runEvents_end s rcd rest] at hr
      cases ho : runEvents { s with in_batch := false, batch_events := [] }
          (s.batch_events.map (fun ev => (false, ev)) ++ rest) with
      | none => rw [ho] at hr; cases hr
      | some w =>
          rw [ho] at hr
          simp only [Option.map, Option.some.injEq] at hr
          have hq := ih w h ho
          cases hr
          exact hq
  | case5 s rcd e rest hcond hcore hnbs hnbe =>
      intro out h hr
      have hm : e.isBatchMarker = false := by
        cases e <;> first | rfl | exact absurd rfl hnbs | exact absurd rfl hnbe
      have hbe : e.isBatchEnd = false := by
        cases e <;> simp_all [GraphEvent.isBatchEnd, GraphEvent.isBatchMarker]
      have hib : s.in_batch = false := by
        cases hsb : s.in_batch
        · rfl
        · exact absurd (by simp [hsb, hbe]) hcond
      rw [runEvents_step s rcd e rest hib hm, hcore] at hr
      cases hr
  | case6 s rcd e rest hcond n ed m r hcore s' hnbs hnbe ih =>
      intro out h hr
      have hm : e.isBatchMarker = false := by
        cases e <;> first | rfl | exact absurd rfl hnbs | exact absurd rfl hnbe
      have hbe : e.isBatchEnd = false := by
        cases e <;> simp_all [GraphEvent.isBatchEnd, GraphEvent.isBatchMarker]
      have hib : s.in_batch = false := by
        cases hsb : s.in_batch
        · rfl
        · exact absurd (by simp [hsb, hbe]) hcond
      rw [runEvents_step s rcd e rest hib hm, hcore] at hr
      dsimp only at hr
      have hed : ed.Nodup := apply_core_edges_nodup s e h n ed m r hcore
      cases ho : runEvents { s with graph_nodes := n, graph_edges := ed, node_map := m } rest with
      | none => rw [ho] at hr; cases hr
      | some w =>
          rw [ho] at hr
          simp only [Option.map, Option.some.injEq] at hr
          have hq := ih w hed ho
          cases hr
          exact hq


/-! ## Helper lemmas: the decimal printer `natToStr` is injective -/

theorem digitVal_digitChar (d : Nat) (h : d < 10) :
    digitVal (Char.ofNat (48 + d)) = d := by
  interval_cases d <;> rfl

theorem decValue_append_digit (l : List Char) (c : Char) :
    decValue (l ++ [c]) = 10 * decValue l + digitVal c := by
  unfold decValue
  rw [List.foldl_append]
  rfl

theorem natToStrAux_ne_nil : ∀ (fuel n : Nat), n < fuel → natToStrAux fuel n ≠ []
  | 0, n, h => by omega
  | fuel + 1, n, h => by
      unfold natToStrAux
      split
      · simp
      · simp

theorem decValue_natToStrAux : ∀ (fuel n : Nat), n < fuel →
    decValue (natToStrAux fuel n) = n
  | 0, n, h => by omega
  | fuel + 1, n, h => by
      unfold natToStrAux
      split
      · show decValue ([] ++ [Char.ofNat (48 + n)]) = n
        rw [decValue_append_digit]
        unfold decValue
        simp [digitVal_digitChar n (by omega)]
      · rename_i hn
        rw [decValue_append_digit]
        have hdiv : n / 10 < fuel := by
          have := Nat.div_lt_self (by omega : 0 < n) (by omega : 1 < 10)
          omega
        rw [decValue_natToStrAux fuel (n / 10) hdiv]
        rw [digitVal_digitChar (n % 10) (Nat.mod_lt _ (by omega))]
        omega

theorem natToStr_inj {a b : Nat} (h : natToStr a = natToStr b) : a = b := by
  unfold natToStr at h
  have hd : natToStrAux (a + 1) a = natToStrAux (b + 1) b := congrArg String.data h
  have ha := decValue_natToStrAux (a + 1) a (by omega)
  have hb := decValue_natToStrAux (b + 1) b (by omega)
  rw [hd] at ha
  omega

theorem dupCandidate_inj (name : String) {k1 k2 : Nat}
    (h : dupCandidate name k1 = dupCandidate name k2) : k1 = k2 := by
  unfold dupCandidate at h
  have hd := congrArg String.data h
  simp only [String.data_append] at hd
  have := List.append_cancel_left hd
  exact natToStr_inj (String.ext this)


/-! ## Helper lemmas: disambiguation always leaves the seen set (pigeonhole) -/

theorem disambigAux_spec (seen : List String) (name : String) : ∀ (fuel k : Nat),
    ((List.range fuel).filter (fun i => seen.contains (dupCandidate name (k + i)))).length < fuel →
    seen.contains (disambigAux seen name k fuel) = false := by
  intro fuel
  induction fuel with
  | zero => intro k h; simp at h
  | succ fuel ih =>
      intro k h
      unfold disambigAux
      by_cases hc : seen.contains (dupCandidate name k) = true
      · rw [if_pos hc]
        apply ih (k + 1)
        rw [List.range_succ_eq_map] at h
        rw [List.filter_cons] at h
        simp only [Nat.add_zero, hc, if_pos] at h
        rw [List.filter_map] at h
        simp only [List.length_cons, List.length_map] at h
        have hcong : ((List.range fuel).filter (fun i => seen.contains (dupCandidate name (k + (i + 1))))) =
            ((List.range fuel).filter (fun i => seen.contains (dupCandidate name (k + 1 + i)))) := by
          apply List.filter_congr
          intro a _
          have : k + (a + 1) = k + 1 + a := by omega
          rw [this]
        rw [Function.comp_def] at h
        rw [hcong] at h
        omega
      · rw [if_neg hc]
        simpa using hc

theorem contains_eq_true_iff (l : List String) (x : String) :
    l.contains x = true ↔ x ∈ l := by
  exact List.elem_iff

theorem disambig_not_mem (seen : List String) (name : String) :
    seen.contains (disambig seen name) = false := by
  unfold disambig
  apply disambigAux_spec
  set L := (List.range (seen.length + 1)).filter
    (fun i => seen.contains (dupCandidate name (2 + i))) with hL
  have hnd : L.Nodup := (List.nodup_range _).filter _
  have hmap : (L.map (fun i => dupCandidate name (2 + i))).Nodup := by
    apply hnd.map_on
    intro x _ y _ hxy
    have := dupCandidate_inj name hxy
    omega
  have hsub : (L.map (fun i => dupCandidate name (2 + i))) ⊆ seen := by
    intro x hx
    obtain ⟨i, hi, hix⟩ := List.mem_map.mp hx
    have := (List.mem_filter.mp hi).2
    rw [← hix]
    exact (contains_eq_true_iff _ _).mp (by simpa using this)
  have hle : (L.map (fun i => dupCandidate name (2 + i))).length ≤ seen.length :=
    (List.subperm_of_subset hmap hsub).length_le
  rw [List.length_map] at hle
  omega


/-! ## Helper lemmas: the id list of the `DotSource` node pass -/

theorem ofNode_into (n : NodeInfo) : (EventNodeInfo.ofNode n).into = n := by
  cases n
  rfl

theorem dotNodeIds_length : ∀ (ns : List NodeInfo) (seen : List String),
    (dotNodeIds ns seen).length = ns.length
  | [], _ => rfl
  | n :: rest, seen => by
      unfold dotNodeIds
      simp [dotNodeIds_length rest]

theorem dotNodeEvents_eq : ∀ (ns : List NodeInfo) (seen : List String),
    dotNodeEvents ns seen = (List.zip (dotNodeIds ns seen) ns).map
      (fun p => .AddNode p.1 (EventNodeInfo.ofNode p.2))
  | [], _ => rfl
  | n :: rest, seen => by
      unfold dotNodeEvents dotNodeIds
      simp only [List.zip_cons_cons, List.map_cons]
      rw [dotNodeEvents_eq rest]

theorem dotNodeIds_fresh : ∀ (ns : List NodeInfo) (seen : List String),
    ∀ id ∈ dotNodeIds ns seen, ¬ id ∈ seen
  | [], _ => by simp [dotNodeIds]
  | n :: rest, seen => by
      intro id hid
      unfold dotNodeIds at hid
      rcases List.mem_cons.mp hid with h | h
      · subst h
        split
        · intro hmem
          have hnm : ¬ disambig seen n.name ∈ seen := by
            simpa using disambig_not_mem seen n.name
          exact hnm hmem
        · rename_i hns
          intro hmem
          exact hns (by simpa using hmem)
      · intro hmem
        have := dotNodeIds_fresh rest _ id h
        exact this (List.mem_cons_of_mem _ hmem)

theorem dotNodeIds_nodup : ∀ (ns : List NodeInfo) (seen : List String),
    (dotNodeIds ns seen).Nodup
  | [], _ => List.nodup_nil
  | n :: rest, seen => by
      unfold dotNodeIds
      refine List.nodup_cons.mpr ⟨?_, dotNodeIds_nodup rest _⟩
      intro hmem
      have := dotNodeIds_fresh rest _ _ hmem
      simp at this


/-! ## Helper lemmas: association-list lookups and `apply_list` -/

theorem alistGet_nil {β : Type} (k : String) : alistGet ([] : List (String × β)) k = none := rfl

theorem alistGet_cons {β : Type} (k' : String) (v : β) (m : List (String × β)) (k : String) :
    alistGet ((k', v) :: m) k = if k' == k then some v else alistGet m k := by
  unfold alistGet
  cases h : (k' == k) <;> simp [List.find?_cons, h]

theorem alistGet_append {β : Type} (m1 m2 : List (String × β)) (k : String) :
    alistGet (m1 ++ m2) k =
      match alistGet m1 k with
      | some v => some v
      | none => alistGet m2 k := by
  unfold alistGet
  rw [List.find?_append]
  cases hf : m1.find? (fun p => p.1 == k) with
  | none => simp [Option.orElse]
  | some p => simp [Option.orElse]

theorem alistGet_none_any_false {β : Type} (m : List (String × β)) (k : String)
    (h : alistGet m k = none) : m.any (fun p => p.1 == k) = false := by
  unfold alistGet at h
  rw [Option.map_eq_none'] at h
  rw [List.find?_eq_none] at h
  rw [List.any_eq_false]
  intro p hp
  simp only [Bool.not_eq_true]
  exact Bool.not_eq_true _ ▸ (by simpa using h p hp)

theorem alistGet_some_mem {β : Type} (m : List (String × β)) (k : String) (v : β)
    (h : alistGet m k = some v) : (k, v) ∈ m := by
  unfold alistGet at h
  rw [Option.map_eq_some'] at h
  obtain ⟨p, hp, hv⟩ := h
  have hm := List.mem_of_find?_eq_some hp
  have hk := List.find?_some hp
  simp at hk
  obtain ⟨p1, p2⟩ := p
  simp at hk hv
  subst hk
  subst hv
  exact hm

theorem apply_list_append (a : List GraphEvent) : ∀ (s : GraphState) (b : List GraphEvent),
    apply_list s (a ++ b) = (apply_list s a).bind
      (fun p => (apply_list p.1 b).map (fun q => (q.1, p.2 ++ q.2))) := by
  induction a with
  | nil =>
      intro s b
      simp only [List.nil_append, apply_list]
      cases hb : apply_list s b with
      | none => simp [hb]
      | some q => simp [hb]
  | cons e tl ih =>
      intro s b
      simp only [List.cons_append, apply_list]
      cases hc : apply_core s e with
      | none => simp
      | some v =>
          obtain ⟨n, ed, m, r⟩ := v
          dsimp only
          simp only [List.append_eq]
          rw [ih]
          cases ha : apply_list { s with graph_nodes := n, graph_edges := ed, node_map := m } tl with
          | none => simp
          | some p =>
              cases hb : apply_list p.1 b with
              | none => simp [hb]
              | some q => simp [hb]


/-! ## Helper lemmas: the two passes of `DotSource::events` under `apply_list` -/

theorem apply_addnodes : ∀ (ns : List NodeInfo) (seen : List String) (s : GraphState),
    (∀ id ∈ dotNodeIds ns seen, alistGet s.node_map id = none) →
    apply_list s (dotNodeEvents ns seen) =
      some ({ s with
          graph_nodes := s.graph_nodes ++ ns,
          node_map := s.node_map ++
            (dotNodeIds ns seen).zip (List.range' s.graph_nodes.length ns.length) },
        List.replicate ns.length .Success)
  | [], seen, s => by
      intro _
      cases s
      simp [dotNodeEvents, dotNodeIds, apply_list]
  | n :: rest, seen, s => by
      intro hfresh
      have hids : dotNodeIds (n :: rest) seen =
          (if seen.contains n.name then disambig seen n.name else n.name) ::
            dotNodeIds rest ((if seen.contains n.name then disambig seen n.name else n.name) :: seen) := rfl
      set fid := if seen.contains n.name then disambig seen n.name else n.name with hfid
      have hhd : alistGet s.node_map fid = none :=
        hfresh fid (by rw [hids]; exact List.mem_cons_self _ _)
      have hevs : dotNodeEvents (n :: rest) seen =
          .AddNode fid (EventNodeInfo.ofNode n) :: dotNodeEvents rest (fid :: seen) := rfl
      rw [hevs]
      simp only [apply_list, apply_core, hhd, Option.isSome_none, Bool.false_eq_true, if_false]
      rw [ofNode_into]
      have hins : alistInsert s.node_map fid s.graph_nodes.length =
          s.node_map ++ [(fid, s.graph_nodes.length)] := by
        unfold alistInsert
        rw [alistGet_none_any_false _ _ hhd]
        simp
      rw [hins]
      have hfr : ∀ id ∈ dotNodeIds rest (fid :: seen),
          alistGet (s.node_map ++ [(fid, s.graph_nodes.length)]) id = none := by
        intro id hid
        have hni := dotNodeIds_fresh rest (fid :: seen) id hid
        have hne : id ≠ fid := fun heq => hni (heq ▸ List.mem_cons_self _ _)
        have hnm : alistGet s.node_map id = none :=
          hfresh id (by rw [hids]; exact List.mem_cons_of_mem _ hid)
        rw [alistGet_append, hnm]
        rw [alistGet_cons]
        have hbeq : (fid == id) = false := by
          simp only [beq_eq_false_iff_ne, ne_eq]
          exact fun heq => hne heq.symm
        simp [hbeq, alistGet_nil]
      have hih := apply_addnodes rest (fid :: seen)
        { s with graph_nodes := s.graph_nodes ++ [n], node_map := s.node_map ++ [(fid, s.graph_nodes.length)] }
        hfr
      rw [hih]
      simp only [Option.map_some', Option.some.injEq, Prod.mk.injEq]
      constructor
      · rw [hids]
        simp only [List.length_append, List.length_singleton, List.length_cons,
          Nat.add_eq, GraphState.mk.injEq]
        simp [List.range', List.append_assoc]
      · simp [List.replicate_succ]

theorem apply_addedges : ∀ (es : List GraphEvent) (s : GraphState),
    (∀ e ∈ es, ∃ fr tgt, e = .AddEdge fr tgt) →
    (∀ p ∈ s.node_map, p.2 < s.graph_nodes.length) →
    ∃ out, apply_list s es = some out ∧ out.1.node_map = s.node_map ∧
      out.1.graph_nodes = s.graph_nodes
  | [], s => by
      intro _ _
      exact ⟨(s, []), rfl, rfl, rfl⟩
  | e :: tl, s => by
      intro hsh hb
      obtain ⟨fr, tgt, he⟩ := hsh e (List.mem_cons_self _ _)
      subst he
      simp only [apply_list]
      rcases hf : alistGet s.node_map fr with _ | fi <;>
        rcases ht : alistGet s.node_map tgt with _ | ti <;>
          simp only [apply_core, hf, ht]
      case none.none =>
        obtain ⟨out, hout, hm, hn⟩ := apply_addedges tl
          { s with graph_nodes := s.graph_nodes, graph_edges := s.graph_edges, node_map := s.node_map }
          (fun e he => hsh e (List.mem_cons_of_mem _ he)) hb
        exact ⟨(out.1, .NodeNotFound :: out.2), by rw [hout]; rfl, hm, hn⟩
      case none.some =>
        obtain ⟨out, hout, hm, hn⟩ := apply_addedges tl
          { s with graph_nodes := s.graph_nodes, graph_edges := s.graph_edges, node_map := s.node_map }
          (fun e he => hsh e (List.mem_cons_of_mem _ he)) hb
        exact ⟨(out.1, .NodeNotFound :: out.2), by rw [hout]; rfl, hm, hn⟩
      case some.none =>
        obtain ⟨out, hout, hm, hn⟩ := apply_addedges tl
          { s with graph_nodes := s.graph_nodes, graph_edges := s.graph_edges, node_map := s.node_map }
          (fun e he => hsh e (List.mem_cons_of_mem _ he)) hb
        exact ⟨(out.1, .NodeNotFound :: out.2), by rw [hout]; rfl, hm, hn⟩
      case some.some =>
        have hfi : fi < s.graph_nodes.length := hb _ (alistGet_some_mem _ _ _ hf)
        have hti : ti < s.graph_nodes.length := hb _ (alistGet_some_mem _ _ _ ht)
        rcases hfe : findEdge s.graph_edges fi ti with _ | j <;>
          simp only [hfe, Option.isSome_none, Option.isSome_some, Bool.false_eq_true,
            if_false, if_true]
        · rw [if_pos ⟨hfi, hti⟩]
          dsimp only
          obtain ⟨out, hout, hm, hn⟩ := apply_addedges tl
            { s with graph_nodes := s.graph_nodes, graph_edges := s.graph_edges ++ [(fi, ti)], node_map := s.node_map }
            (fun e he => hsh e (List.mem_cons_of_mem _ he)) hb
          exact ⟨(out.1, .Success :: out.2), by rw [hout]; rfl, hm, hn⟩
        · obtain ⟨out, hout, hm, hn⟩ := apply_addedges tl
            { s with graph_nodes := s.graph_nodes, graph_edges := s.graph_edges, node_map := s.node_map }
            (fun e he => hsh e (List.mem_cons_of_mem _ he)) hb
          exact ⟨(out.1, .EdgeExists :: out.2), by rw [hout]; rfl, hm, hn⟩

theorem dotEdgeEvents_shape (gd : GraphData) :
    ∀ e ∈ dotEdgeEvents gd, ∃ fr tgt, e = .AddEdge fr tgt := by
  intro e he
  unfold dotEdgeEvents at he
  obtain ⟨pr, _, hpr⟩ := List.mem_filterMap.mp he
  rcases h1 : gd.graph_nodes[pr.1]? with _ | nf <;> rw [h1] at hpr
  · simp at hpr
  · rcases h2 : gd.graph_nodes[pr.2]? with _ | nt <;> rw [h2] at hpr
    · simp at hpr
    · simp only [Option.some.injEq] at hpr
      exact ⟨nf.name, nt.name, hpr.symm⟩

theorem dotEdgeEvents_endpoints (gd : GraphData) (fr tgt : String)
    (h : GraphEvent.AddEdge fr tgt ∈ dotEdgeEvents gd) :
    (∃ nd ∈ gd.graph_nodes, nd.name = fr) ∧ (∃ nd ∈ gd.graph_nodes, nd.name = tgt) := by
  unfold dotEdgeEvents at h
  obtain ⟨pr, _, hpr⟩ := List.mem_filterMap.mp h
  rcases h1 : gd.graph_nodes[pr.1]? with _ | nf <;> rw [h1] at hpr
  · simp at hpr
  · rcases h2 : gd.graph_nodes[pr.2]? with _ | nt <;> rw [h2] at hpr
    · simp at hpr
    · simp only [Option.some.injEq, GraphEvent.AddEdge.injEq] at hpr
      obtain ⟨hfr, htg⟩ := hpr
      exact ⟨⟨nf, List.getElem?_mem h1, hfr⟩, ⟨nt, List.getElem?_mem h2, htg⟩⟩

theorem dotNodeEvents_shape : ∀ (ns : List NodeInfo) (seen : List String),
    ∀ e ∈ dotNodeEvents ns seen, ∃ id info, e = .AddNode id info
  | [], _ => by simp [dotNodeEvents]
  | n :: rest, seen => by
      intro e he
      unfold dotNodeEvents at he
      rcases List.mem_cons.mp he with h | h
      · exact ⟨_, _, h⟩
      · exact dotNodeEvents_shape rest _ e h

theorem alistGet_zip_map (f : Nat → Nat) : ∀ (ids : List String) (l : List Nat) (k : String),
    alistGet (ids.zip (l.map f)) k = (alistGet (ids.zip l) k).map f
  | [], l, k => by simp [alistGet]
  | id :: ids, [], k => by simp [alistGet]
  | id :: ids, x :: l, k => by
      simp only [List.map_cons, List.zip_cons_cons]
      rw [alistGet_cons, alistGet_cons]
      by_cases h : (id == k) = true
      · simp [h]
      · simp only [Bool.not_eq_true] at h
        simp [h, alistGet_zip_map f ids l k]

theorem resolve_first_name : ∀ (ns : List NodeInfo) (seen : List String) (n : String),
    (∀ pr ∈ (dotNodeIds ns seen).zip ns, pr.1 ≠ pr.2.name → ∀ nn ∈ ns, pr.1 ≠ nn.name) →
    n ∉ seen →
    (∃ nd ∈ ns, nd.name = n) →
    (alistGet ((dotNodeIds ns seen).zip (List.range ns.length)) n).bind
      (fun i => ns[i]?) = ns.find? (fun nd => nd.name == n)
  | [], seen, n => by
      intro _ _ hmem
      simp at hmem
  | nd :: rest, seen, n => by
      intro hH hn hmem
      have hids : dotNodeIds (nd :: rest) seen =
          (if seen.contains nd.name then disambig seen nd.name else nd.name) ::
            dotNodeIds rest ((if seen.contains nd.name then disambig seen nd.name else nd.name) :: seen) := rfl
      set fid := if seen.contains nd.name then disambig seen nd.name else nd.name with hfid
      rw [hids]
      simp only [List.length_cons, List.range_succ_eq_map, List.zip_cons_cons]
      by_cases hname : nd.name = n
      · have hnc : seen.contains nd.name = false := by
          cases hc : seen.contains nd.name
          · rfl
          · exfalso
            apply hn
            rw [← hname]
            simpa using hc
        have hfn : fid = n := by
          rw [hfid, hnc]
          simpa using hname
        rw [alistGet_cons]
        simp only [hfn, beq_self_eq_true, if_true]
        rw [List.find?_cons_of_pos _ (by simp [hname])]
        simp
      · have hfnn : fid ≠ n := by
          by_cases hc : seen.contains nd.name = true
          · have h1 : fid ∉ seen := by
              rw [hfid, if_pos hc]
              simpa using disambig_not_mem seen nd.name
            have h2 : fid ≠ nd.name := by
              intro he
              exact h1 (by rw [he]; simpa using hc)
            obtain ⟨ndw, hw, hwn⟩ := hmem
            have := hH (fid, nd) (by rw [hids, List.zip_cons_cons]; exact List.mem_cons_self _ _)
              h2 ndw hw
            rw [hwn] at this
            exact this
          · rw [hfid, if_neg hc]
            exact hname
        have hH' : ∀ pr ∈ (dotNodeIds rest (fid :: seen)).zip rest,
            pr.1 ≠ pr.2.name → ∀ nn ∈ rest, pr.1 ≠ nn.name := by
          intro pr hpr hprn nn hnn
          refine hH pr ?_ hprn nn (List.mem_cons_of_mem _ hnn)
          rw [hids, List.zip_cons_cons]
          exact List.mem_cons_of_mem _ hpr
        have hn' : n ∉ fid :: seen := by
          intro hcon
          rcases List.mem_cons.mp hcon with h | h
          · exact hfnn h.symm
          · exact hn h
        have hmem' : ∃ nd' ∈ rest, nd'.name = n := by
          obtain ⟨nd', h', hm'⟩ := hmem
          rcases List.mem_cons.mp h' with h | h
          · exact absurd (h ▸ hm') hname
          · exact ⟨nd', h, hm'⟩
        have hih := resolve_first_name rest (fid :: seen) n hH' hn' hmem'
        rw [alistGet_cons]
        have hbeq : (fid == n) = false := by
          simp only [beq_eq_false_iff_ne, ne_eq]
          exact hfnn
        simp only [hbeq, Bool.false_eq_true, if_false]
        rw [show (Nat.succ : Nat → Nat) = (fun i => i + 1) from rfl] at *
        rw [alistGet_zip_map (fun i => i + 1)]
        rw [List.find?_cons_of_neg _ (by simp [hname])]
        rw [← hih]
        cases hx : alistGet ((dotNodeIds rest (fid :: seen)).zip (List.range rest.length)) n with
        | none => simp
        | some i => simp

theorem addedge_mem_edgeEvents (gd : GraphData) (fr tgt : String)
    (h : GraphEvent.AddEdge fr tgt ∈ dotsource_events gd) :
    GraphEvent.AddEdge fr tgt ∈ dotEdgeEvents gd := by
  unfold dotsource_events at h
  rcases List.mem_cons.mp h with h | h
  · cases h
  · rcases List.mem_append.mp h with h | h
    · rcases List.mem_append.mp h with h | h
      · obtain ⟨id, info, he⟩ := dotNodeEvents_shape _ _ _ h
        cases he
      · exact h
    · simp at h


/-! ## The claims -/

/-- Claim C1, counterexample: the batched and unbatched runs of
`[AddNode "A", AddNode "A"]` from the fresh state reach the same final state,
but the unbatched run reports the duplicate as `NodeExists` while inside a
batch every queued event is recorded as `Success` at enqueue time, so the
per-event outcomes differ. -/
theorem c1_counterexample :
    process_events GraphState.new
        [.AddNode "A" ⟨"A", none, 0⟩, .AddNode "A" ⟨"A", none, 0⟩] =
      some (⟨[⟨"A", none, 0⟩], [], [("A", 0)], false, []⟩, [.Success, .NodeExists]) ∧
    process_events GraphState.new
        [.BatchStart, .AddNode "A" ⟨"A", none, 0⟩, .AddNode "A" ⟨"A", none, 0⟩, .BatchEnd] =
      some (⟨[⟨"A", none, 0⟩], [], [("A", 0)], false, []⟩,
        [.Success, .Success, .Success, .Success]) := by
  constructor
  · rw [process_events_flat _ _ rfl (by decide)]
    rfl
  · have h : [GraphEvent.BatchStart, .AddNode "A" ⟨"A", none, 0⟩,
        .AddNode "A" ⟨"A", none, 0⟩, .BatchEnd] =
      GraphEvent.BatchStart :: ([.AddNode "A" ⟨"A", none, 0⟩, .AddNode "A" ⟨"A", none, 0⟩]
        ++ [.BatchEnd]) := rfl
    rw [h, process_events_batched _ _ rfl rfl (by decide)]
    rfl

/-- Claim C1 (corrected): for a batch-marker-free event sequence,
`process_events` on `[BatchStart, e1..eN, BatchEnd]` applies the same fold
`apply_list` as the unbatched run (so the final states agree), but reports
`N + 2` uniform `Success` outcomes, not the per-event outcomes of the
unbatched run. -/
theorem c1_batch_outcomes (s : GraphState) (es : List GraphEvent)
    (h : s.in_batch = false) (hb : s.batch_events = [])
    (hm : ∀ e ∈ es, e.isBatchMarker = false) :
    process_events s (.BatchStart :: (es ++ [.BatchEnd])) =
      (apply_list s es).map (fun p => (p.1, List.replicate (es.length + 2) .Success)) ∧
    process_events s es = apply_list s es :=
  ⟨process_events_batched s es h hb hm, process_events_flat s es h hm⟩

/-- Witness for the corrected C1 statement at the concrete one-event
sequence `[AddNode "W"]`. -/
theorem c1_batch_outcomes_witness :
    process_events GraphState.new (.BatchStart :: ([.AddNode "W" ⟨"W", none, 0⟩] ++ [.BatchEnd])) =
      (apply_list GraphState.new [.AddNode "W" ⟨"W", none, 0⟩]).map
        (fun p => (p.1, List.replicate ([GraphEvent.AddNode "W" ⟨"W", none, 0⟩].length + 2) .Success)) ∧
    process_events GraphState.new [.AddNode "W" ⟨"W", none, 0⟩] =
      apply_list GraphState.new [.AddNode "W" ⟨"W", none, 0⟩] :=
  c1_batch_outcomes GraphState.new [.AddNode "W" ⟨"W", none, 0⟩] rfl rfl (by decide)

/-- Claim C2 (confirmed): on a state outside a batch, `AddEdge` on an already
present ordered `(from, to)` pair returns `EdgeExists` without changing the
state, `AddRichEdge` (arm modelled from the spec) is rejected identically, and
after any event sequence from the fresh state the live edge list holds no
duplicate `(from, to)` index pair. -/
theorem c2_edge_unique :
    (∀ (s : GraphState) (fr tgt : String) (fi ti j : Nat), s.in_batch = false →
      alistGet s.node_map fr = some fi → alistGet s.node_map tgt = some ti →
      findEdge s.graph_edges fi ti = some j →
      process_event s (.AddEdge fr tgt) = some (s, .EdgeExists)) ∧
    (∀ (s : GraphState) (fr tgt : String) (info : EventEdgeInfo) (fi ti j : Nat),
      s.in_batch = false →
      alistGet s.node_map fr = some fi → alistGet s.node_map tgt = some ti →
      findEdge s.graph_edges fi ti = some j →
      process_event s (.AddRichEdge fr tgt info) = some (s, .EdgeExists)) ∧
    (∀ (es : List GraphEvent) (out : GraphState × List EventResult),
      process_events GraphState.new es = some out → out.1.graph_edges.Nodup) := by
  refine ⟨?_, ?_, ?_⟩
  · intro s fr tgt fi ti j h h1 h2 h3
    rw [process_event_step s (.AddEdge fr tgt) h rfl]
    simp [apply_core, h1, h2, h3]
  · intro s fr tgt info fi ti j h h1 h2 h3
    rw [process_event_step s (.AddRichEdge fr tgt info) h rfl]
    simp [apply_core, h1, h2, h3]
  · intro es out hr
    exact runEvents_edges_nodup GraphState.new _ out (by simp [GraphState.new]) hr

/-- Witness for C2 on the concrete two-node state that already stores the
edge `(0, 1)`. -/
theorem c2_edge_unique_witness :
    process_event edgeState (.AddEdge "A" "B") = some (edgeState, .EdgeExists) ∧
    process_event edgeState (.AddRichEdge "A" "B" ⟨some "m", some "sync", some 1⟩) =
      some (edgeState, .EdgeExists) ∧
    (⟨[⟨"A", none, 0⟩, ⟨"B", none, 0⟩], [(0, 1)], [("A", 0), ("B", 1)], false, []⟩ :
      GraphState).graph_edges.Nodup :=
  ⟨c2_edge_unique.1 edgeState "A" "B" 0 1 0 rfl rfl rfl rfl,
   c2_edge_unique.2.1 edgeState "A" "B" ⟨some "m", some "sync", some 1⟩ 0 1 0 rfl rfl rfl rfl,
   c2_edge_unique.2.2
     [.AddNode "A" ⟨"A", none, 0⟩, .AddNode "B" ⟨"B", none, 0⟩, .AddEdge "A" "B"]
     (⟨[⟨"A", none, 0⟩, ⟨"B", none, 0⟩], [(0, 1)], [("A", 0), ("B", 1)], false, []⟩,
      [.Success, .Success, .Success])
     (by rw [process_events_flat _ _ rfl (by decide)]; rfl)⟩

/-- Claim C3, failing run (code bug): after
`[AddNode "A", AddNode "B", RemoveNode "A"]` petgraph's swap-remove moves
`"B"`'s node to index 0, but `remove_node` never updates `node_map`, so the
map still sends `"B"` to the stale index 1 and `get_node "B"` returns `none`
although `"B"` is present in the graph. -/
theorem c3_stale_map_eval :
    (process_events GraphState.new
        [.AddNode "A" ⟨"A", none, 0⟩, .AddNode "B" ⟨"B", none, 0⟩, .RemoveNode "A"]).map
      (fun p => (alistGet p.1.node_map "B", p.1.graph_nodes, p.1.get_node "B")) =
    some (some 1, [⟨"B", none, 0⟩], none) := by
  rw [process_events_flat _ _ rfl (by decide)]
  rfl

/-- Claim C4, failing run (code bug): after
`[AddNode "N1", AddNode "N2", RemoveNode "N1"]` the live state holds one node,
but `as_graph_data` skips every map entry whose stale index points outside the
node arena, so the snapshot holds zero nodes — the counts disagree. -/
theorem c4_snapshot_eval :
    (process_events GraphState.new
        [.AddNode "N1" ⟨"N1", none, 0⟩, .AddNode "N2" ⟨"N2", none, 0⟩, .RemoveNode "N1"]).map
      (fun p => (p.1.node_count, (as_graph_data p.1).graph_nodes.length,
        (as_graph_data p.1).graph_edges.length)) = some (1, 0, 0) := by
  rw [process_events_flat _ _ rfl (by decide)]
  rfl

/-- Claim C5, counterexample: a participant with no position hint gets
level 1, not the claimed level 0. -/
theorem c5_counterexample :
    plantuml.participant_level none = 1 ∧ plantuml.participant_level none ≠ 0 := by
  constructor
  · rfl
  · decide

/-- Claim C5 (corrected): the participant level of `PlantUMLSource::events`
is 0 for a `Sequential` position, the explicit layer for a `Layer` position,
and 1 (not 0) when the position hint is absent. -/
theorem c5_level_amended :
    (∀ o, plantuml.participant_level (some (.Sequential o)) = 0) ∧
    (∀ l, plantuml.participant_level (some (.Layer l)) = l) ∧
    plantuml.participant_level none = 1 :=
  ⟨fun _ => rfl, fun _ => rfl, rfl⟩

/-- Claim C6, counterexample: the in-repo DOT parser validates `type=` tags
against the closed `NodeType` enum, so the two distinct unknown tags `"foo"`
and `"bar"` are both collapsed to `NodeType.Default` rather than preserved
verbatim. -/
theorem c6_counterexample :
    (parse_dot_file "\"X\" [type=\"foo\"];\n\"Y\" [type=\"bar\"];\n\"X\" -> \"Y\";").graph_nodes =
      [⟨"X", .Default, 0⟩, ⟨"Y", .Default, 0⟩] ∧
    ("foo" : String) ≠ "bar" := by
  constructor
  · rfl
  · decide

/-- Claim C6 (corrected): `type=` tags are parsed into the closed `NodeType`
enum (`NodeType::parse`), unknown tags collapse to `Default`, and the cited
input yields node `CEO` with `NodeType.Organization` and level 3 and node
`Manager` with `NodeType.Default` and level 0. -/
theorem c6_amended :
    parse_dot_file "\"CEO\" [type=\"organization\", level=\"3\"];\n\"CEO\" -> \"Manager\";" =
      ⟨[⟨"CEO", .Organization, 3⟩, ⟨"Manager", .Default, 0⟩], [(0, 1)],
        [("CEO", 0), ("Manager", 1)]⟩ ∧
    types.NodeType.parse "blorp" = .Default ∧
    types.NodeType.parse "organization" = .Organization :=
  ⟨rfl, rfl, rfl⟩

/-- Claim C7, counterexample: `detect_format` searches for the substring
`"graph"` anywhere (not `digraph` or a standalone word `graph`), so
`"photograph"` — which contains no `digraph`, no `->` and no bracket — is
classified as DOT. -/
theorem c7_counterexample :
    detect_format "photograph" = some "dot" ∧
    strContains (rustTrim "photograph") "digraph" = false ∧
    strContains (rustTrim "photograph") "->" = false ∧
    strContainsChar (rustTrim "photograph") '[' = false :=
  ⟨rfl, rfl, rfl, rfl⟩

/-- Claim C7 (corrected): `detect_format` applies its rules in priority
order — a PlantUML marker first; then `digraph`, the substring `graph`
anywhere, or `->`; then the bracket fallback requiring both `[` and `]`;
otherwise `none`. -/
theorem c7_amended (s : String) :
    (has_plantuml_marker (rustTrim s) = true → detect_format s = some "plantuml") ∧
    (has_plantuml_marker (rustTrim s) = false → has_dot_marker (rustTrim s) = true →
      detect_format s = some "dot") ∧
    (has_plantuml_marker (rustTrim s) = false → has_dot_marker (rustTrim s) = false →
      has_attr_brackets (rustTrim s) = true → detect_format s = some "dot") ∧
    (has_plantuml_marker (rustTrim s) = false → has_dot_marker (rustTrim s) = false →
      has_attr_brackets (rustTrim s) = false → detect_format s = none) := by
  unfold detect_format has_plantuml_marker has_dot_marker has_attr_brackets
  refine ⟨?_, ?_, ?_, ?_⟩ <;> intros <;> simp_all

/-- Witness for the corrected C7 statement: one concrete input per branch of
the priority order. -/
theorem c7_amended_witness :
    detect_format "@startuml" = some "plantuml" ∧
    detect_format "digraph x" = some "dot" ∧
    detect_format "a [b]" = some "dot" ∧
    detect_format "zzz" = none :=
  ⟨(c7_amended "@startuml").1 (by decide),
   (c7_amended "digraph x").2.1 (by decide) (by decide),
   (c7_amended "a [b]").2.2.1 (by decide) (by decide) (by decide),
   (c7_amended "zzz").2.2.2 (by decide) (by decide) (by decide)⟩

/-- Claim C8, counterexample: on the single-line input
`digraph \x7b A -> B; B -> C; \x7d` the line-oriented parser sees one line,
splits it on the first `->`, and emits two garbage nodes and one edge — not
the claimed three nodes and two edges. -/
theorem c8_counterexample :
    DotSource_events "digraph \x7b A -> B; B -> C; \x7d" =
      [.BatchStart, .AddNode "digraph \x7b A" ⟨"digraph \x7b A", none, 0⟩,
       .AddNode "B; B" ⟨"B; B", none, 0⟩, .AddEdge "digraph \x7b A" "B; B", .BatchEnd] := rfl

/-- Claim C8 (corrected): on the multi-line form of the cited input (one
statement per line) `DotSource::events` yields exactly `BatchStart`, three
`AddNode`s for `A`, `B`, `C`, two `AddEdge`s, `BatchEnd`, and processing the
sequence from the fresh state yields `node_count = 3` and `edge_count = 2`. -/
theorem c8_amended :
    DotSource_events "digraph \x7b\nA -> B;\nB -> C;\n\x7d" =
      [.BatchStart, .AddNode "A" ⟨"A", none, 0⟩, .AddNode "B" ⟨"B", none, 0⟩,
       .AddNode "C" ⟨"C", none, 0⟩, .AddEdge "A" "B", .AddEdge "B" "C", .BatchEnd] ∧
    (process_events GraphState.new (DotSource_events "digraph \x7b\nA -> B;\nB -> C;\n\x7d")).map
      (fun p => (p.1.node_count, p.1.edge_count)) = some (3, 2) := by
  constructor
  · rfl
  · have h : DotSource_events "digraph \x7b\nA -> B;\nB -> C;\n\x7d" =
      GraphEvent.BatchStart :: ([.AddNode "A" ⟨"A", none, 0⟩, .AddNode "B" ⟨"B", none, 0⟩,
        .AddNode "C" ⟨"C", none, 0⟩, .AddEdge "A" "B", .AddEdge "B" "C"] ++ [.BatchEnd]) := rfl
    rw [h, process_events_batched _ _ rfl rfl (by decide)]
    rfl

/-- Claim C9, counterexample: in `gd9` the disambiguated id `"X_2"` of the
second node collides with the third node's display name `"X_2"`; the emitted
edge `AddEdge "X" "X_2"` therefore resolves its target to the disambiguated
node (stored under index 1, whose info is named `"X"`), not to the first node
carrying the display name `"X_2"` — so a disambiguated node is referenced by
an edge and the endpoint does not resolve to the first node of that name. -/
theorem c9_counterexample :
    dotsource_events gd9 = [.BatchStart, .AddNode "X" ⟨"X", none, 0⟩,
        .AddNode "X_2" ⟨"X", none, 0⟩, .AddNode "X_2_2" ⟨"X_2", none, 0⟩,
        .AddEdge "X" "X_2", .BatchEnd] ∧
    (∃ out, process_events GraphState.new (dotsource_events gd9) = some out ∧
      out.1.graph_edges = [(0, 1)] ∧
      out.1.get_node "X_2" = some ⟨"X", none, 0⟩) ∧
    gd9.graph_nodes.find? (fun nd => nd.name == "X_2") = some ⟨"X_2", none, 0⟩ := by
  have hp := process_events_batched GraphState.new
    [.AddNode "X" ⟨"X", none, 0⟩, .AddNode "X_2" ⟨"X", none, 0⟩,
     .AddNode "X_2_2" ⟨"X_2", none, 0⟩, .AddEdge "X" "X_2"] rfl rfl (by decide)
  have hsh : dotsource_events gd9 = GraphEvent.BatchStart ::
      ([.AddNode "X" ⟨"X", none, 0⟩, .AddNode "X_2" ⟨"X", none, 0⟩,
        .AddNode "X_2_2" ⟨"X_2", none, 0⟩, .AddEdge "X" "X_2"] ++ [.BatchEnd]) := rfl
  refine ⟨rfl, ⟨(⟨[⟨"X", none, 0⟩, ⟨"X", none, 0⟩, ⟨"X_2", none, 0⟩], [(0, 1)],
      [("X", 0), ("X_2", 1), ("X_2_2", 2)], false, []⟩,
      List.replicate 6 .Success), ?_, rfl, rfl⟩, rfl⟩
  rw [hsh, hp]
  rfl

/-- Claim C9 (corrected): edge events always use original display names and
each endpoint names some node of the parsed graph; the assigned ids are
duplicate-free; and under the added hypothesis that no disambiguated id
collides with any display name, no emitted edge references a disambiguated
id and every endpoint of every emitted edge resolves, in the state produced
by processing `DotSource::events`, to the first graph node carrying that
display name. -/
theorem c9_amended (gd : GraphData) :
    (∀ fr tgt, GraphEvent.AddEdge fr tgt ∈ dotsource_events gd →
      (∃ nd ∈ gd.graph_nodes, nd.name = fr) ∧ (∃ nd ∈ gd.graph_nodes, nd.name = tgt)) ∧
    (dotNodeIds gd.graph_nodes []).Nodup ∧
    ((∀ pr ∈ (dotNodeIds gd.graph_nodes []).zip gd.graph_nodes, pr.1 ≠ pr.2.name →
        ∀ nn ∈ gd.graph_nodes, pr.1 ≠ nn.name) →
      (∀ pr ∈ (dotNodeIds gd.graph_nodes []).zip gd.graph_nodes, pr.1 ≠ pr.2.name →
        ∀ fr tgt, GraphEvent.AddEdge fr tgt ∈ dotsource_events gd → pr.1 ≠ fr ∧ pr.1 ≠ tgt) ∧
      ∃ out, process_events GraphState.new (dotsource_events gd) = some out ∧
        ∀ fr tgt, GraphEvent.AddEdge fr tgt ∈ dotsource_events gd →
          out.1.get_node fr = gd.graph_nodes.find? (fun nd => nd.name == fr) ∧
          out.1.get_node tgt = gd.graph_nodes.find? (fun nd => nd.name == tgt)) := by
  have hendpoints : ∀ fr tgt, GraphEvent.AddEdge fr tgt ∈ dotsource_events gd →
      (∃ nd ∈ gd.graph_nodes, nd.name = fr) ∧ (∃ nd ∈ gd.graph_nodes, nd.name = tgt) :=
    fun fr tgt h => dotEdgeEvents_endpoints gd fr tgt (addedge_mem_edgeEvents gd fr tgt h)
  refine ⟨hendpoints, dotNodeIds_nodup _ _, ?_⟩
  intro hH
  constructor
  · intro pr hpr hprn fr tgt hmem
    constructor
    · obtain ⟨⟨nd, hnd, hname⟩, -⟩ := hendpoints fr tgt hmem
      exact hname ▸ hH pr hpr hprn nd hnd
    · obtain ⟨-, ⟨nd, hnd, hname⟩⟩ := hendpoints fr tgt hmem
      exact hname ▸ hH pr hpr hprn nd hnd
  · have hmid : dotsource_events gd = .BatchStart ::
        ((dotNodeEvents gd.graph_nodes [] ++ dotEdgeEvents gd) ++ [.BatchEnd]) := by
      unfold dotsource_events
      rw [List.append_assoc]
    have hmarker : ∀ e ∈ dotNodeEvents gd.graph_nodes [] ++ dotEdgeEvents gd,
        e.isBatchMarker = false := by
      intro e he
      rcases List.mem_append.mp he with h | h
      · obtain ⟨id, info, rfl⟩ := dotNodeEvents_shape _ _ _ h
        rfl
      · obtain ⟨fr, tgt, rfl⟩ := dotEdgeEvents_shape _ _ h
        rfl
    have hnodes : apply_list GraphState.new (dotNodeEvents gd.graph_nodes []) =
        some (⟨gd.graph_nodes, [],
          (dotNodeIds gd.graph_nodes []).zip (List.range gd.graph_nodes.length), false, []⟩,
          List.replicate gd.graph_nodes.length .Success) := by
      rw [apply_addnodes gd.graph_nodes [] GraphState.new (by intro id _; rfl)]
      simp [GraphState.new, List.range_eq_range']
    have hbound : ∀ p ∈ ((⟨gd.graph_nodes, [],
        (dotNodeIds gd.graph_nodes []).zip (List.range gd.graph_nodes.length), false, []⟩ :
          GraphState)).node_map,
        p.2 < (⟨gd.graph_nodes, [],
          (dotNodeIds gd.graph_nodes []).zip (List.range gd.graph_nodes.length), false, []⟩ :
            GraphState).graph_nodes.length := by
      intro p hp
      have := (List.of_mem_zip hp).2
      exact List.mem_range.mp this
    obtain ⟨outE, houtE, hm, hn⟩ := apply_addedges (dotEdgeEvents gd)
      ⟨gd.graph_nodes, [],
        (dotNodeIds gd.graph_nodes []).zip (List.range gd.graph_nodes.length), false, []⟩
      (dotEdgeEvents_shape gd) hbound
    have hlist : apply_list GraphState.new
        (dotNodeEvents gd.graph_nodes [] ++ dotEdgeEvents gd) =
        some (outE.1, List.replicate gd.graph_nodes.length .Success ++ outE.2) := by
      rw [apply_list_append, hnodes]
      simp only [Option.some_bind]
      rw [houtE]
      simp
    have hrun : process_events GraphState.new (dotsource_events gd) =
        some (outE.1, List.replicate
          ((dotNodeEvents gd.graph_nodes [] ++ dotEdgeEvents gd).length + 2) .Success) := by
      rw [hmid, process_events_batched _ _ rfl rfl hmarker, hlist]
      simp
    refine ⟨_, hrun, ?_⟩
    intro fr tgt hmem
    have hget : ∀ x, (∃ nd ∈ gd.graph_nodes, nd.name = x) →
        outE.1.get_node x = gd.graph_nodes.find? (fun nd => nd.name == x) := by
      intro x hx
      unfold GraphState.get_node
      rw [hm, hn]
      exact resolve_first_name gd.graph_nodes [] x hH (by simp) hx
    exact ⟨hget fr (hendpoints fr tgt hmem).1, hget tgt (hendpoints fr tgt hmem).2⟩

/-- Witness for the corrected C9 statement on `gd_w`, whose disambiguated id
`"A_2"` collides with no display name; the collision-freedom hypothesis is
discharged by computation. -/
theorem c9_amended_witness :
    ∃ out, process_events GraphState.new (dotsource_events gd_w) = some out ∧
      ∀ fr tgt, GraphEvent.AddEdge fr tgt ∈ dotsource_events gd_w →
        out.1.get_node fr = gd_w.graph_nodes.find? (fun nd => nd.name == fr) ∧
        out.1.get_node tgt = gd_w.graph_nodes.find? (fun nd => nd.name == tgt) :=
  ((c9_amended gd_w).2.2 (by decide)).2

/-- Claim C10, counterexample: on the reachable state left by
`[AddNode "P", AddNode "Q", RemoveNode "P"]` the map still sends `"Q"` to the
stale index 1, so `UpdateNode "Q"` finds `node_map.get("Q")` present yet
`node_weight` returns nothing, and the result is `NodeNotFound` — `UpdateNode`
on a mapped id is not always `Success`. -/
theorem c10_counterexample :
    process_events GraphState.new
        [.AddNode "P" ⟨"P", none, 0⟩, .AddNode "Q" ⟨"Q", none, 0⟩, .RemoveNode "P"] =
      some (staleState, [.Success, .Success, .Success]) ∧
    alistGet staleState.node_map "Q" = some 1 ∧
    process_event staleState (.UpdateNode "Q" ⟨"Q2", some "team", 5⟩) =
      some (staleState, .NodeNotFound) := by
  refine ⟨?_, rfl, ?_⟩
  · rw [process_events_flat _ _ rfl (by decide)]
    rfl
  · rw [process_event_step staleState (.UpdateNode "Q" ⟨"Q2", some "team", 5⟩) rfl rfl]
    rfl

/-- Claim C10 (corrected): outside a batch, `UpdateNode id info` replaces the
whole `NodeInfo` record at the stored index and returns `Success` only when
the stored index is a live node index; a mapped-but-stale index, like an
unmapped id, returns `NodeNotFound` and leaves the state unchanged. -/
theorem c10_amended (s : GraphState) (id : String) (info : EventNodeInfo)
    (h : s.in_batch = false) :
    (∀ idx, alistGet s.node_map id = some idx →
      (idx < s.graph_nodes.length →
        process_event s (.UpdateNode id info) =
          some ({ s with graph_nodes := s.graph_nodes.set idx info.into }, .Success)) ∧
      (s.graph_nodes.length ≤ idx →
        process_event s (.UpdateNode id info) = some (s, .NodeNotFound))) ∧
    (alistGet s.node_map id = none →
      process_event s (.UpdateNode id info) = some (s, .NodeNotFound)) := by
  rw [process_event_step s (.UpdateNode id info) h rfl]
  refine ⟨fun idx hidx => ⟨fun hlt => ?_, fun hge => ?_⟩, fun hnone => ?_⟩
  · simp [apply_core, hidx, hlt]
  · simp [apply_core, hidx, Nat.not_lt.mpr hge]
  · simp [apply_core, hnone]

/-- Witness for the corrected C10 statement on the coherent one-node state. -/
theorem c10_amended_witness :
    process_event oneNodeState (.UpdateNode "N" ⟨"M", some "team", 7⟩) =
      some ({ oneNodeState with
        graph_nodes := oneNodeState.graph_nodes.set 0 (EventNodeInfo.into ⟨"M", some "team", 7⟩) },
        .Success) :=
  ((c10_amended oneNodeState "N" ⟨"M", some "team", 7⟩ rfl).1 0 rfl).1 (by decide)
